import Mathlib

/-!
Verification development for the fast-linkedin-scraper extraction core.

The Python sources under src/fast_linkedin_scraper are shallowly embedded:
pure string-processing functions become Lean functions over List Char /
String, the stateful scraping loops become explicit state-passing
functions, and DOM access is abstracted into the text values the code
reads from the page.  Python str values are modelled as List Char
(Python strings are sequences of code points, as are Lean String.data
lists).  The regular expressions in the source are embedded as
deterministic matchers that mirror the structure of the concrete
patterns; whitespace and digits are modelled as their ASCII classes.
-/

/-! ## Basic Python string primitives -/

/-- Whitespace test for the ASCII whitespace class recognized by Python
str.strip and the regex class backslash-s on the inputs in scope. -/
def isWsC (c : Char) : Bool :=
  c == ' ' || c == '\t' || c == '\n' || c == '\r' || c == '\x0b' || c == '\x0c'

/-- ASCII digit test, modelling the regex class backslash-d. -/
def isDigitC (c : Char) : Bool :=
  48 ≤ c.toNat && c.toNat ≤ 57

/-- ASCII lower-casing of one character, modelling Python str.lower on the
ASCII range used by the source's keyword vocabularies. -/
def asciiLower (c : Char) : Char :=
  if 65 ≤ c.toNat && c.toNat ≤ 90 then Char.ofNat (c.toNat + 32) else c

/-- Python str.lower on a whole string (ASCII model). -/
def asciiLowerStr (s : String) : String :=
  ⟨s.data.map asciiLower⟩

/-- Python str.strip on a character list. -/
def stripL (l : List Char) : List Char :=
  ((l.dropWhile isWsC).reverse.dropWhile isWsC).reverse

/-- Python str.strip. -/
def pyStrip (s : String) : String :=
  ⟨stripL s.data⟩

/-- Does the first list occur as a prefix of the second? -/
def startsWithL : List Char → List Char → Bool
  | [], _ => true
  | _ :: _, [] => false
  | p :: ps, c :: cs => p == c && startsWithL ps cs

/-- Python substring containment: needle occurs contiguously in hay.
Models the Python expression needle in hay. -/
def containsSub (hay needle : List Char) : Bool :=
  match hay with
  | [] => startsWithL needle []
  | c :: t => startsWithL needle (c :: t) || containsSub t needle

/-- Python needle in hay for strings. -/
def pyIn (needle hay : String) : Bool :=
  containsSub hay.data needle.data

/-- Python single-character containment c in hay. -/
def pyInC (c : Char) (hay : String) : Bool :=
  hay.data.contains c

/-- Fuel-indexed worker for Python str.split with a non-empty
separator; the fuel is an upper bound on the number of characters left,
so the zero-fuel branch is unreachable from splitOnLGo below. -/
def splitOnLFuel (sep : List Char) : Nat → List Char → List (List Char)
  | _, [] => [[]]
  | 0, l => [l]
  | fuel + 1, c :: rest =>
    if sep ≠ [] && startsWithL sep (c :: rest) then
      [] :: splitOnLFuel sep fuel (rest.drop (sep.length - 1))
    else
      match splitOnLFuel sep fuel rest with
      | [] => [[]]
      | h :: t => (c :: h) :: t

/-- Python str.split with a non-empty separator, on character lists. -/
def splitOnLGo (sep : List Char) (l : List Char) : List (List Char) :=
  splitOnLFuel sep l.length l

/-- Python str.split with an explicit separator. -/
def pySplit (sep s : String) : List String :=
  (splitOnLGo sep.data s.data).map (fun l => ⟨l⟩)

/-- Join a list of character lists with a separator: the helper through
which Python str.replace is modelled. -/
def joinSepL (sep : List Char) : List (List Char) → List Char
  | [] => []
  | [x] => x
  | x :: xs => x ++ sep ++ joinSepL sep xs

/-- Python str.replace old new (old non-empty): replace every
non-overlapping occurrence, scanning left to right. -/
def pyReplace (old new s : String) : String :=
  ⟨joinSepL new.data (splitOnLGo old.data s.data)⟩

/-- Worker for Python whitespace split: acc holds the current token in
reverse. -/
def splitWsGo : List Char → List Char → List (List Char)
  | [], acc => if acc.isEmpty then [] else [acc.reverse]
  | c :: rest, acc =>
    if isWsC c then
      if acc.isEmpty then splitWsGo rest []
      else acc.reverse :: splitWsGo rest []
    else splitWsGo rest (c :: acc)

/-- Python str.split with no argument: split on whitespace runs,
dropping empty fragments. -/
def splitWsL (l : List Char) : List (List Char) :=
  splitWsGo l []

/-- Python str.split with no argument, for strings. -/
def pySplitWsStr (s : String) : List String :=
  (splitWsL s.data).map (fun l => ⟨l⟩)

/-- Python text.join-style string concatenation with a separator. -/
def joinSep (sep : String) : List String → String
  | [] => ""
  | [x] => x
  | x :: xs => x ++ sep ++ joinSep sep xs

/-- Order-preserving exact-equality deduplication, modelling the
idiom: for x in xs, if x not in unique, unique.append x. -/
def dedupKeepFirst (xs : List String) : List String :=
  xs.foldl (fun acc x => if acc.contains x then acc else acc ++ [x]) []

/-- Python str.endswith for character lists. -/
def endsWithL (suf l : List Char) : Bool :=
  startsWithL suf.reverse l.reverse

/-! ## Employment-type and location heuristics
Source: src/fast_linkedin_scraper/scrapers/person/utils.py -/

/-- The fixed vocabulary LINKEDIN_EMPLOYMENT_TYPES from
src/fast_linkedin_scraper/scrapers/person/utils.py (a Python set; order
is irrelevant to the functions using it, see the membership and
containment scans below). -/
def LINKEDIN_EMPLOYMENT_TYPES : List String :=
  ["self-employed", "freelance", "internship", "apprenticeship",
   "contract full-time", "permanent part-time", "contract part-time",
   "casual / on-call", "seasonal", "permanent full-time", "co-op",
   "full-time", "part-time", "contract", "temporary", "volunteer",
   "work study"]

/-- Embedding of is_employment_type (person/utils.py): true when the
lowered, stripped text is an exact vocabulary member or contains a
vocabulary entry as a substring. -/
def is_employment_type (text : String) : Bool :=
  if text == "" then false
  else
    let tl := pyStrip (asciiLowerStr text)
    LINKEDIN_EMPLOYMENT_TYPES.contains tl ||
      LINKEDIN_EMPLOYMENT_TYPES.any (fun e => containsSub tl.data e.data)

/-- Separator scan inside extract_employment_type: for each separator in
the listed order, if it occurs in the text, look for a split part whose
stripped lowering is an exact vocabulary member and return that part
stripped; a separator that occurs but yields no member falls through to
the next separator. -/
def empSepScan (text : String) : List String → Option String
  | [] => none
  | sep :: rest =>
    if pyIn sep text then
      match (pySplit sep text).find?
          (fun part => LINKEDIN_EMPLOYMENT_TYPES.contains (asciiLowerStr (pyStrip part))) with
      | some part => some (pyStrip part)
      | none => empSepScan text rest
    else empSepScan text rest

/-- Embedding of extract_employment_type (person/utils.py): exact match
first, then separator-split parts, then, if a vocabulary entry occurs as
a substring, the first whitespace word that is itself an exact member;
otherwise None. -/
def extract_employment_type (text : String) : Option String :=
  if text == "" then none
  else
    let tl := pyStrip (asciiLowerStr text)
    if LINKEDIN_EMPLOYMENT_TYPES.contains tl then some (pyStrip text)
    else
      match empSepScan text ["·", ",", "-", "•"] with
      | some r => some r
      | none =>
        if LINKEDIN_EMPLOYMENT_TYPES.any (fun e => containsSub tl.data e.data) then
          match (pySplitWsStr text).find?
              (fun w => LINKEDIN_EMPLOYMENT_TYPES.contains (pyStrip (asciiLowerStr w))) with
          | some w => some (pyStrip w)
          | none => none
        else none

/-- The geographic indicator list from is_geographic_location
(person/utils.py). -/
def locationIndicators : List String :=
  [",", "area", "region", "metropolitan", "remote", "on-site", "hybrid",
   "germany", "austria", "canada", "usa", "united states", "uk", "france",
   "city", "state", "province", "country", "district", "county", "am main",
   "rhine-main", "greater", "toronto", "frankfurt", "linz", "hanau",
   "aachen", "hesse", "upper austria", "ontario"]

/-- The indicator scan of is_geographic_location taken on its own: does
the lowered, stripped text contain any geographic indicator? -/
def hasLocationIndicator (text : String) : Bool :=
  locationIndicators.any
    (fun ind => containsSub (pyStrip (asciiLowerStr text)).data ind.data)

/-- Embedding of is_geographic_location (person/utils.py): false on
empty text, false whenever is_employment_type holds, otherwise the
indicator scan. -/
def is_geographic_location (text : String) : Bool :=
  if text == "" then false
  else if is_employment_type text then false
  else hasLocationIndicator text

/-! ## Date-range recognizer and parser
Source: src/fast_linkedin_scraper/scrapers/person/utils.py,
is_date_range and parse_date_range_smart.  The regexes are embedded as
deterministic matchers over List Char.  The optional month group and the
optional right-hand group commit without backtracking: this is faithful
because the regex alternatives are prefix-disjoint (a month abbreviation
never starts with a digit, Present never starts with a month triple or
digit), so a committed sub-match can never block an overall match that
skipping the group would allow. -/

/-- The twelve month-abbreviation triples of the regex, lower-cased. -/
def monthTriples : List (List Char) :=
  [['j','a','n'], ['f','e','b'], ['m','a','r'], ['a','p','r'],
   ['m','a','y'], ['j','u','n'], ['j','u','l'], ['a','u','g'],
   ['s','e','p'], ['o','c','t'], ['n','o','v'], ['d','e','c']]

/-- Case-insensitive month-abbreviation test on three characters. -/
def isMonthTriple (a b c : Char) : Bool :=
  monthTriples.contains [asciiLower a, asciiLower b, asciiLower c]

/-- Match one month abbreviation (case-insensitive) at the head,
returning the remainder. -/
def matchMonth : List Char → Option (List Char)
  | a :: b :: c :: rest =>
    if isMonthTriple a b c then some rest else none
  | _ => none

/-- Greedy backslash-s star. -/
def skipWs (l : List Char) : List Char :=
  l.dropWhile isWsC

/-- Greedy backslash-s plus: at least one whitespace character. -/
def matchWs1 : List Char → Option (List Char)
  | [] => none
  | c :: rest => if isWsC c then some (skipWs rest) else none

/-- Match exactly four ASCII digits. -/
def matchDigit4 : List Char → Option (List Char)
  | a :: b :: c :: d :: rest =>
    if isDigitC a && isDigitC b && isDigitC c && isDigitC d then some rest
    else none
  | _ => none

/-- Match the regex fragment (Mon whitespace-plus)? digit-4.  When the
month path fails after the triple matched, the no-month alternative
would have to read a digit where a month letter stands, so returning
none is faithful to the backtracking regex. -/
def matchMonthYear (cs : List Char) : Option (List Char) :=
  match matchMonth cs with
  | some r =>
    match matchWs1 r with
    | some r2 => matchDigit4 r2
    | none => none
  | none => matchDigit4 cs

/-- Match the literal Present, case-insensitively. -/
def matchPresent : List Char → Option (List Char)
  | p :: r :: e :: s :: e2 :: n :: t :: rest =>
    if [asciiLower p, asciiLower r, asciiLower e, asciiLower s,
        asciiLower e2, asciiLower n, asciiLower t] = ['p','r','e','s','e','n','t']
    then some rest else none
  | _ => none

/-- Anchored match of the full date-range regex of is_date_range:
whitespace-star, month-year, whitespace-star, dash, whitespace-star,
optional (month-year or Present), whitespace-star, end. -/
def dateRangeMatch (cs : List Char) : Bool :=
  match matchMonthYear (skipWs cs) with
  | none => false
  | some c2 =>
    match skipWs c2 with
    | [] => false
    | c :: c4 =>
      if c = '-' then
        let c5 := skipWs c4
        let c6 :=
          match matchMonthYear c5 with
          | some r => r
          | none =>
            match matchPresent c5 with
            | some r => r
            | none => c5
        (skipWs c6).isEmpty
      else false

/-- Embedding of is_date_range (person/utils.py): empty or dash-free
text is rejected outright, otherwise the stripped text must match the
anchored date-range pattern. -/
def is_date_range (text : String) : Bool :=
  if text == "" || !(pyInC '-' text) then false
  else dateRangeMatch (stripL text.data)

/-- Python text.split(dash, 1): the part before the first dash and,
when a dash occurs, the part after it. -/
def breakAtDash : List Char → List Char × Option (List Char)
  | [] => ([], none)
  | c :: rest =>
    if c = '-' then ([], some rest)
    else
      let p := breakAtDash rest
      (c :: p.1, p.2)

/-- Anchored match of the from-date validation regex of
parse_date_range_smart: (Mon whitespace-plus)? digit-4, whole string. -/
def matchesFromDate (l : List Char) : Bool :=
  match matchMonthYear l with
  | some r => r.isEmpty
  | none => false

/-- Anchored match of the to-date validation regex of
parse_date_range_smart: (Mon whitespace-plus)? digit-4 or Present,
whole string. -/
def matchesToDate (l : List Char) : Bool :=
  matchesFromDate l ||
    (match matchPresent l with
     | some r => r.isEmpty
     | none => false)

/-- Embedding of parse_date_range_smart (person/utils.py): split at the
first dash, strip both sides, validate the left side as month-year and
a non-empty right side as month-year or Present; any validation failure
returns a pair of empty strings. -/
def parse_date_range_smart (text : String) : String × String :=
  if text == "" || !(pyInC '-' text) then ("", "")
  else
    let p := breakAtDash text.data
    let fromD := stripL p.1
    let toD := match p.2 with
      | some rr => stripL rr
      | none => []
    if !matchesFromDate fromD then ("", "")
    else if !toD.isEmpty && !matchesToDate toD then ("", "")
    else (⟨fromD⟩, ⟨toD⟩)

/-! ## URL normalization
Source: src/fast_linkedin_scraper/scrapers/company/utils.py -/

/-- Model of urllib.parse.urljoin with the fixed base
https://www.linkedin.com, covering the reference forms the scrapers
feed it: absolute references carrying a scheme (detected by a
scheme-separator occurrence and returned unchanged, up to scheme-case
which the callers either lower afterwards or never exercise),
scheme-relative references, root-relative paths, and bare relative
paths. -/
def urljoinBase (url : String) : String :=
  if containsSub url.data [':', '/', '/'] then url
  else if startsWithL ['/', '/'] url.data then "https:" ++ url
  else if startsWithL ['/'] url.data then "https://www.linkedin.com" ++ url
  else "https://www.linkedin.com/" ++ url

/-- Python url.rstrip on the slash character, over character lists. -/
def rstripSlash (l : List Char) : List Char :=
  (l.reverse.dropWhile (fun c => c == '/')).reverse

/-- Python url.split at the first occurrence of a character, keeping the
part before it: url.split(c)[0]. -/
def beforeChar (c : Char) (l : List Char) : List Char :=
  l.takeWhile (fun x => x ≠ c)

/-- Embedding of normalize_profile_url (company/utils.py): empty input
is returned as is; a protocol is prefixed when the input does not start
with http; the query string, fragment and trailing slashes are removed
and the result is lower-cased. -/
def normalize_profile_url (url : String) : String :=
  if url == "" then url
  else
    let u := if startsWithL ['h','t','t','p'] url.data then url else urljoinBase url
    ⟨(rstripSlash (beforeChar '#' (beforeChar '?' u.data))).map asciiLower⟩

/-- Embedding of clean_company_url (company/utils.py): protocol prefix
when missing, query string removed, trailing slashes removed; no
fragment removal and no lower-casing. -/
def clean_company_url (url : String) : String :=
  if url == "" then url
  else
    let u := if startsWithL ['h','t','t','p'] url.data then url else urljoinBase url
    ⟨rstripSlash (beforeChar '?' u.data)⟩

/-! ## Duplicate-line cleaning and the description/skills splitter
Source: src/fast_linkedin_scraper/scrapers/person/utils.py -/

/-- Embedding of clean_single_string_duplicates (person/utils.py):
short text is merely stripped; otherwise the text is split into
stripped non-empty lines, an exact two-line duplication collapses to
one line, and in general duplicated lines are removed keeping first
occurrences and the survivors are joined with single spaces. -/
def clean_single_string_duplicates (text : String) : String :=
  if text == "" || text.data.length < 5 then pyStrip text
  else
    let lines := ((pySplit "\n" text).map pyStrip).filter (fun l => l ≠ "")
    if lines.isEmpty then pyStrip text
    else if lines.length == 2 && lines.getD 0 "" == lines.getD 1 "" then
      lines.getD 0 ""
    else
      let uniq := dedupKeepFirst lines
      if !uniq.isEmpty then joinSep " " uniq else pyStrip text

/-- The institution keyword list used to filter extracted skill
fragments in extract_description_and_skills. -/
def skillFilterWords : List String :=
  ["university", "college", "school", "institute", "hochschule",
   "aachen", "technische"]

/-- The institution keyword list that truncates an embedded skills line
in the mixed-content branch of extract_description_and_skills. -/
def skillsLineStopWords : List String :=
  ["university", "college", "school", "institute", "hochschule",
   "english", "german", "technische"]

/-- The keyword subset at which the word-by-word truncation of an
embedded skills line stops. -/
def skillsBreakWords : List String :=
  ["university", "college", "school", "institute", "hochschule"]

/-- The keyword list that excludes a line from the description in the
mixed-content branch. -/
def descriptionExcludeWords : List String :=
  ["university", "college", "school", "institute", "hochschule",
   "english", "german"]

/-- Shared final filter on extracted skill fragments: non-empty, no
newline, no institution keyword in the lowering. -/
def cleanSkillKeep (skill : String) : Bool :=
  skill ≠ "" && !(pyInC '\n' skill) &&
    !(skillFilterWords.any (fun w => pyIn w (asciiLowerStr skill)))

/-- Split a skills payload on the middle-dot separator when present,
else on commas, stripping fragments; the keepEmpty flag distinguishes
the two source branches (the Skills-prefix branch drops empty fragments
at split time, the mixed-content branch keeps them for the later
filter). -/
def splitSkillsText (keepEmpty : Bool) (skillsText : String) : List String :=
  let parts :=
    if pyInC '·' skillsText then (pySplit "·" skillsText).map pyStrip
    else (pySplit "," skillsText).map pyStrip
  if keepEmpty then parts else parts.filter (fun s => s ≠ "")

/-- Word-by-word truncation of an embedded skills line: accumulate
whitespace words until one contains a break keyword, joining the kept
words with single spaces and stripping the result (the source appends a
space after every kept word and strips at the end). -/
def truncateAtBreakWord (ws : List String) : String :=
  pyStrip (joinSep "" ((ws.takeWhile
    (fun part => !(skillsBreakWords.any (fun w => pyIn w (asciiLowerStr part))))).map
      (fun part => part ++ " ")))

/-- Embedding of is_content_essentially_same_when_building_from_multiple_elements
(person/utils.py), parameterized by the external rapidfuzz similarity
functions fr (fuzz.ratio) and pr (fuzz.partial_ratio), which are
collaborators outside this repository.  Formatting markers are removed
from line heads, short lines never match, and three fuzzy tests are
tried against the existing lines. -/
def stripMarker (s : String) : String :=
  let t := pyStrip s
  match t.data with
  | m :: rest =>
    if m == '-' || m == '•' || m == '*' then ⟨rest.dropWhile isWsC⟩ else t
  | [] => t

/-- Leading decimal-number-dot marker removal, second marker regex of
the source: one or more digits, a dot, then optional whitespace. -/
def stripNumberMarker (s : String) : String :=
  let ds := s.data.takeWhile isDigitC
  if ds ≠ [] then
    match s.data.drop ds.length with
    | '.' :: rest => ⟨rest.dropWhile isWsC⟩
    | _ => s
  else s

/-- Normalization applied to each line before fuzzy comparison: strip,
then remove a leading list marker, then a leading numbered marker. -/
def fuzzNormalize (s : String) : String :=
  stripNumberMarker (stripMarker s)

/-- Embedding of the fuzzy near-duplicate test, with the rapidfuzz
ratio functions passed in as parameters fr and pr. -/
def is_content_same (fr pr : String → String → Nat)
    (newLine : String) (existingLines : List String) (threshold : Nat) : Bool :=
  if pyStrip newLine == "" || existingLines.isEmpty then false
  else
    let nn := fuzzNormalize newLine
    if nn.data.length < 20 then false
    else
      let combined := (existingLines.map fuzzNormalize).filter
        (fun e => 20 ≤ e.data.length)
      if combined.isEmpty then false
      else
        combined.any (fun e => threshold ≤ fr (asciiLowerStr nn) (asciiLowerStr e)) ||
        threshold ≤ fr (asciiLowerStr nn) (asciiLowerStr (joinSep " " combined)) ||
        combined.any (fun e => 90 ≤ pr (asciiLowerStr e) (asciiLowerStr nn))

/-- Processing of one embedded Skills line in the mixed-content branch
of extract_description_and_skills: remove the prefix, truncate at
institution keywords when present, split and filter. -/
def skillsFromLine (line : String) : List String :=
  let skillsText := pyStrip ⟨line.data.drop 7⟩
  if skillsText ≠ "" then
    let skillsText :=
      if skillsLineStopWords.any (fun w => pyIn w (asciiLowerStr skillsText)) then
        truncateAtBreakWord (pySplitWsStr skillsText)
      else skillsText
    if skillsText ≠ "" then
      (splitSkillsText true skillsText).filter cleanSkillKeep
    else []
  else []

/-- One step of the line loop in the mixed-content branch: the state is
the accumulated description lines and skills. -/
def descSkillsStep (fr pr : String → String → Nat)
    (st : List String × List String) (rawLine : String) : List String × List String :=
  let line := pyStrip rawLine
  if line == "" then st
  else if startsWithL "Skills:".data line.data then
    (st.1, st.2 ++ skillsFromLine line)
  else if !(descriptionExcludeWords.any (fun w => pyIn w (asciiLowerStr line))) &&
      !(is_content_same fr pr line st.1 80) then
    (st.1 ++ [line], st.2)
  else st

/-- Embedding of extract_description_and_skills (person/utils.py),
parameterized by the rapidfuzz similarity collaborators.  A text that
starts with the Skills prefix is parsed purely as skills (the source
removes every occurrence of the prefix, then splits and filters);
otherwise each line is either an embedded skills line or a candidate
description line, and skills are deduplicated keeping first
occurrences. -/
def extract_description_and_skills (fr pr : String → String → Nat)
    (text : String) : String × List String :=
  if text == "" then ("", [])
  else if startsWithL "Skills:".data text.data then
    let skillsText := pyStrip (pyReplace "Skills:" "" text)
    if skillsText ≠ "" then
      ("", (splitSkillsText false skillsText).filter cleanSkillKeep)
    else ("", [])
  else
    let st := (pySplit "\n" text).foldl (descSkillsStep fr pr) ([], [])
    let description := if !st.1.isEmpty then joinSep "\n" st.1 else ""
    (description, dedupKeepFirst st.2)

/-! ## Position-info classification
Source: src/fast_linkedin_scraper/scrapers/person/experience.py,
function _parse_position_info.  A DOM element of the outer position
list is abstracted to the two texts the code reads from it: the text of
its first span and its own full inner text. -/

/-- One outer position element, reduced to the texts the scraper
reads. -/
structure Elem where
  spanText : String
  fullText : String
deriving Repr, DecidableEq

/-- The position_info record built by _parse_position_info.  The
employment_type value is Python-truthy-sensitive: the dictionary starts
at the empty string and extract_employment_type may later store None,
so the model uses an Option whose some-empty value is the initial
state. -/
structure PositionInfo where
  position_title : String := ""
  company : String := ""
  work_times : String := ""
  location : String := ""
  employment_type : Option String := some ""
  from_date : String := ""
  to_date : String := ""
  duration : Option String := none
deriving Repr, DecidableEq

/-- Python falsiness of the employment_type cell: None or the empty
string. -/
def empFalsy : Option String → Bool
  | none => true
  | some s => s == ""

/-- The company-text handling repeated in every branch: when the text
contains a middle dot, the part before it (stripped) is the company and
the part after it may carry the employment type. -/
def parseCompanyText (t : String) : String × Option String :=
  if pyInC '·' t then
    let parts := pySplit "·" t
    let c := pyStrip (parts.getD 0 "")
    let p1 := pyStrip (parts.getD 1 "")
    (c, if parts.length > 1 && is_employment_type p1 then extract_employment_type p1
        else some "")
  else (t, some "")

/-- The smart classification applied to the trailing element (lines
196-211 and the two analogous 3-element branches of experience.py):
an employment-type match wins and clears location, updating the
employment type only when none was set from the company text; otherwise
a geographic match or the backward-compatibility default stores the
text as location. -/
def classifySmart (curEmp : Option String) (txt : String) : Option String × String :=
  if is_employment_type txt then
    (if empFalsy curEmp then extract_employment_type txt else curEmp, "")
  else if is_geographic_location txt then (curEmp, txt)
  else (curEmp, txt)

/-- The date detection used by the 3-element branch on full element
texts: a middle dot is present and some dot-separated part is a date
range. -/
def hasDotDates (t : String) : Bool :=
  pyInC '·' t && (pySplit "·" t).any (fun part => is_date_range (pyStrip part))

/-- The branch-free core of _parse_position_info before validation:
dispatch on the number of outer elements exactly as the source does. -/
def parsePositionInfoRaw (elems : List Elem) : PositionInfo :=
  match elems with
  | [e0, e1, e2, e3] =>
    let title := clean_single_string_duplicates e0.spanText
    let ce := parseCompanyText e1.spanText
    let cl := classifySmart ce.2 e3.spanText
    { position_title := title, company := ce.1, work_times := e2.spanText,
      employment_type := cl.1, location := cl.2 }
  | [e0, e1, e2] =>
    if hasDotDates e1.fullText then
      let ce := parseCompanyText e0.spanText
      let cl := classifySmart ce.2 e2.spanText
      { position_title := "", company := ce.1, work_times := e1.spanText,
        employment_type := cl.1, location := cl.2 }
    else if hasDotDates e2.fullText then
      let title := clean_single_string_duplicates e0.spanText
      let ce := parseCompanyText e1.spanText
      { position_title := title, company := ce.1, work_times := e2.spanText,
        employment_type := ce.2, location := "" }
    else
      let ce := parseCompanyText e0.spanText
      let cl := classifySmart ce.2 e2.spanText
      { position_title := "", company := ce.1, work_times := "",
        employment_type := cl.1, location := cl.2 }
  | es =>
    let ce := match es.getD 0 ⟨"", ""⟩ with
      | e0 => if es.length > 0 then parseCompanyText e0.spanText else ("", some "")
    let wt := if es.length > 1 then (es.getD 1 ⟨"", ""⟩).spanText else ""
    { position_title := "", company := ce.1, work_times := wt,
      employment_type := ce.2, location := "" }

/-- The location validation of _parse_position_info (lines 352-360):
clear the location only when it is non-empty, contains a middle dot and
some dot-separated part is a full date range. -/
def validateLocation (loc : String) : String :=
  if loc ≠ "" && pyInC '·' loc &&
      (pySplit "·" loc).any (fun part => is_date_range (pyStrip part)) then ""
  else loc

/-- The work-times validation: a non-empty work_times containing a
middle dot but no dot-separated date range is cleared. -/
def validateWorkTimes (wt : String) : String :=
  if wt ≠ "" && pyInC '·' wt &&
      !((pySplit "·" wt).any (fun part => is_date_range (pyStrip part))) then ""
  else wt

/-- The date parsing at the end of _parse_position_info: split the
work_times at the middle dot into times and duration, then derive
from_date and to_date from the times text. -/
def parseWorkTimesInto (info : PositionInfo) : PositionInfo :=
  if info.work_times ≠ "" then
    let parts := pySplit "·" info.work_times
    let times := if !parts.isEmpty then pyStrip (parts.getD 0 "") else ""
    let dur := if parts.length > 1 then some (pyStrip (parts.getD 1 "")) else none
    let info := { info with duration := dur }
    if times ≠ "" then
      if pyIn " - " times then
        let dp := pySplit " - " times
        let info := { info with from_date := pyStrip (dp.getD 0 "") }
        if dp.length > 1 && pyStrip (dp.getD 1 "") ≠ "" then
          { info with to_date := pyStrip (dp.getD 1 "") }
        else info
      else if endsWithL " -".data times.data then
        { info with from_date := pyStrip (pyReplace " -" "" times) }
      else
        let tp := pySplitWsStr times
        if tp.length ≥ 2 then
          { info with from_date := joinSep " " (tp.take 2) }
        else info
    else info
  else info

/-- Full embedding of _parse_position_info: raw branch dispatch, field
validation, then work-times parsing. -/
def parsePositionInfo (elems : List Elem) : PositionInfo :=
  let info := parsePositionInfoRaw elems
  let info := { info with location := validateLocation info.location }
  let info := { info with work_times := validateWorkTimes info.work_times }
  parseWorkTimesInto info

/-! ## Employee collection with pagination
Source: src/fast_linkedin_scraper/scrapers/company/employees.py,
function scrape_employees.  One search-result card is abstracted to the
values the code reads from it: whether a profile link is present, the
link target, the resolved name text (after the two name strategies) and
the raw headline text; a card whose processing raises is modelled by an
error message attached to the card, the failure being taken at item
granularity as in the per-item try of the source. -/

/-- An employee record as populated by scrape_employees: the stored URL
is the normalized one, name and headline stay unset when extraction
finds nothing. -/
structure Employee where
  linkedin_url : String
  name : Option String := none
  headline : Option String := none
deriving Repr, DecidableEq

/-- One employee card of a search-results page, abstracted to the texts
the scraper reads from it. -/
structure EmpItem where
  raises : Option String := none
  hasLink : Bool := true
  url : String := ""
  nameText : String := ""
  headlineRaw : String := ""
deriving Repr, DecidableEq

/-- Python dict assignment d[k] = v on an insertion-ordered association
list with unique keys: overwrite in place when the key exists, append
otherwise. -/
def dinsert : List (String × String) → String → String → List (String × String)
  | [], k, v => [(k, v)]
  | p :: ps, k, v => if p.1 == k then (k, v) :: ps else p :: dinsert ps k v

/-- Python dict lookup returning the stored value when present. -/
def lookupKey (m : List (String × String)) (k : String) : Option String :=
  (m.find? (fun p => p.1 == k)).map Prod.snd

/-- The error key written by the per-item handler of scrape_employees. -/
def empErrKey (i : Nat) : String :=
  "employee_extraction_" ++ Nat.repr i

/-- The mutable state threaded through scrape_employees: the seen-set of
normalized URLs, the employee list of the company aggregate, and its
scraping_errors dictionary. -/
structure EmpState where
  processed : List String := []
  employees : List Employee := []
  errors : List (String × String) := []
deriving Repr, DecidableEq

/-- The headline post-processing of scrape_employees: keep a non-empty
stripped headline different from the name, truncated before an at-word
when present. -/
def extractHeadline (nm : Option String) (headlineRaw : String) : Option String :=
  let h := pyStrip headlineRaw
  if h ≠ "" && (match nm with | some n => h ≠ n | none => true) then
    some (if pyIn " at " h then pyStrip ((pySplit " at " h).getD 0 "") else h)
  else none

/-- Processing of the card at index i in the current page's item loop:
a raising card records its item-indexed error key and nothing else; a
card without profile link is skipped; otherwise the URL is normalized,
duplicates of the seen-set are skipped, and an employee is appended
when a name was found. -/
def processItem (i : Nat) (it : EmpItem) (st : EmpState) : EmpState :=
  match it.raises with
  | some msg => { st with errors := dinsert st.errors (empErrKey i) msg }
  | none =>
    if !it.hasLink then st
    else
      let nu := normalize_profile_url it.url
      if st.processed.contains nu then st
      else
        let st := { st with processed := st.processed ++ [nu] }
        let nm := pyStrip it.nameText
        let nameOpt : Option String := if nm ≠ "" then some nm else none
        let emp : Employee :=
          { linkedin_url := nu, name := nameOpt,
            headline := extractHeadline nameOpt it.headlineRaw }
        if nameOpt.isSome then { st with employees := st.employees ++ [emp] }
        else st

/-- The item loop over one page, indices restarting from the given
value (the source restarts at zero on every page). -/
def processItemsFrom (i : Nat) : List EmpItem → EmpState → EmpState
  | [], st => st
  | it :: rest, st => processItemsFrom (i + 1) rest (processItem i it st)

/-- Process all cards of one page. -/
def processPage (st : EmpState) (items : List EmpItem) : EmpState :=
  processItemsFrom 0 items st

/-- Terminal states of the pagination loop, named after the state
machine of the specification: budgetReached labels the exit taken when
the page budget stops the loop, exhausted labels the exits taken when a
page shows no result items or no next control is available. -/
inductive CollectStatus where
  | budgetReached
  | exhausted
deriving Repr, DecidableEq

/-- The pagination loop of scrape_employees: while the page number is
within the budget, extract the current page's cards; advance to the
next page only when the budget allows another page and a next page is
available, otherwise stop.  The available pages stand for what clicking
the next control would successively load. -/
def runPages : List (List EmpItem) → Nat → Nat → EmpState → EmpState × CollectStatus
  | pages, pageNum, maxPages, st =>
    if pageNum ≤ maxPages then
      match pages with
      | [] => (st, .exhausted)
      | items :: rest =>
        if items.isEmpty then (st, .exhausted)
        else
          let st2 := processPage st items
          if pageNum < maxPages then
            match rest with
            | [] => (st2, .exhausted)
            | r :: rs => runPages (r :: rs) (pageNum + 1) maxPages st2
          else (st2, .budgetReached)
    else (st, .budgetReached)


/-! ## Orchestrators
Sources: src/fast_linkedin_scraper/scrapers/company/get_company.py
(CompanyScraper.scrape_profile) and
src/fast_linkedin_scraper/scrapers/person/get_person.py together with
src/fast_linkedin_scraper/scrapers/person/experience.py
(scrape_experiences).  A section's extraction is abstracted to its
outcome: none when it completes, or the message of the exception it
raises.  The affiliated-pages section's own internal item-indexed error
keys are abstracted away here (they follow the same pattern as the
employee item keys); the employees section is modelled in full through
runPages. -/

/-- The company aggregate fields the claims are about. -/
structure CompanyAgg where
  employees : List Employee := []
  scraping_errors : List (String × String) := []
deriving Repr, DecidableEq

/-- One except-clause of the orchestrator: record the section key when
the section's outcome is an exception message, record nothing when it
completed. -/
def recErr (m : List (String × String)) (k : String) : Option String →
    List (String × String)
  | some e => dinsert m k e
  | none => m

/-- Embedding of the try-except chain of CompanyScraper.scrape_profile
proper: basic info and details always run; the affiliated section runs
only when one of its flags is set; the employees section runs only with
a positive page budget, threading the error dictionary through the
pagination loop and recording its own section key when it raises.  A
completing section records nothing (recErr with none). -/
def companyScrapeProfile (basicOutcome detailsOutcome affilOutcome : Option String)
    (scrapeAffil : Bool) (maxPages : Nat) (pages : List (List EmpItem))
    (empOutcome : Option String) : CompanyAgg :=
  let errs : List (String × String) := []
  let errs := recErr errs "basic_info" basicOutcome
  let errs := recErr errs "details" detailsOutcome
  let errs := recErr errs "affiliated_pages" (if scrapeAffil then affilOutcome else none)
  if maxPages > 0 then
    let st := (runPages pages 1 maxPages { errors := errs }).1
    { employees := st.employees,
      scraping_errors := recErr st.errors "employees" empOutcome }
  else { employees := [], scraping_errors := errs }

/-- An experience record; only the fields needed by the claims are
carried, the full record has the shape of the Experience model of
src/fast_linkedin_scraper/models/person.py. -/
structure Experience where
  position_title : String := ""
  institution_name : String := ""
deriving Repr, DecidableEq

/-- The person aggregate fields the claims are about. -/
structure PersonAgg where
  experiences : List Experience := []
  scraping_errors : List (String × String) := []
deriving Repr, DecidableEq

/-- The per-item loop of scrape_experiences (person/experience.py,
lines 50-141): each list item either yields its extracted experiences
(one, or several for a multi-position company entry), or raises; a
raising item is skipped by the bare continue of the per-item handler,
which records nothing. -/
def scrapeExperiencesItems (items : List (Except String (List Experience))) :
    List Experience :=
  items.foldl
    (fun acc it =>
      match it with
      | .ok es => acc ++ es
      | .error _ => acc)
    []

/-- Embedding of scrape_experiences: when the surrounding main-container
block raises (mainOk false), the bare except of lines 143-145 swallows
the error and the person is returned unchanged; otherwise the item loop
appends the extracted experiences.  No path writes to
scraping_errors. -/
def personScrapeExperiences (mainOk : Bool)
    (items : List (Except String (List Experience))) (p : PersonAgg) : PersonAgg :=
  if mainOk then { p with experiences := p.experiences ++ scrapeExperiencesItems items }
  else p

/-- Embedding of the person orchestrator's treatment of the experience
section (PersonScraper.scrape_profile simply awaits each section with
no try wrapper and no error recording; the sections themselves swallow
their errors as modelled above). -/
def personScrapeProfile (expMainOk : Bool)
    (expItems : List (Except String (List Experience))) : PersonAgg :=
  personScrapeExperiences expMainOk expItems {}

/-! ## Declarative forms used to state the claims
These definitions follow the wording of the specification (the shapes a
claim quantifies over, the canonical-URL form, exact vocabulary
membership); they are compared against the embedded source functions by
the theorems below. -/

/-- The employee extracted from a non-raising card with a link: how
processItem stores it. -/
def extractedEmployee (it : EmpItem) : Employee :=
  let nm := pyStrip it.nameText
  let nameOpt : Option String := if nm ≠ "" then some nm else none
  { linkedin_url := normalize_profile_url it.url, name := nameOpt,
    headline := extractHeadline nameOpt it.headlineRaw }

/-- The four section names of the company orchestrator. -/
def sectionNames : List String :=
  ["basic_info", "details", "affiliated_pages", "employees"]

/-- The month abbreviations as written in the shapes of the claim. -/
def monthNames : List String :=
  ["Jan", "Feb", "Mar", "Apr", "May", "Jun", "Jul", "Aug", "Sep", "Oct",
   "Nov", "Dec"]

/-- A four-ASCII-digit year string. -/
def isYearStr (y : String) : Bool :=
  y.data.length == 4 && y.data.all isDigitC

/-- The claim shape Mon YYYY - Mon YYYY. -/
def DateShapeMonFull (s : String) : Prop :=
  ∃ m1 y1 m2 y2, m1 ∈ monthNames ∧ isYearStr y1 = true ∧ m2 ∈ monthNames ∧
    isYearStr y2 = true ∧ s = m1 ++ " " ++ y1 ++ " - " ++ m2 ++ " " ++ y2

/-- The claim shape YYYY - YYYY. -/
def DateShapeYears (s : String) : Prop :=
  ∃ y1 y2, isYearStr y1 = true ∧ isYearStr y2 = true ∧ s = y1 ++ " - " ++ y2

/-- The claim shape Mon YYYY - Present. -/
def DateShapeMonPresent (s : String) : Prop :=
  ∃ m1 y1, m1 ∈ monthNames ∧ isYearStr y1 = true ∧
    s = m1 ++ " " ++ y1 ++ " - Present"

/-- The claim shape YYYY - (ongoing). -/
def DateShapeOngoing (s : String) : Prop :=
  ∃ y1, isYearStr y1 = true ∧ s = y1 ++ " -"

/-- One of the four date-range shapes listed by the claim. -/
def ListedDateShape (s : String) : Prop :=
  DateShapeMonFull s ∨ DateShapeYears s ∨ DateShapeMonPresent s ∨
    DateShapeOngoing s

/-- Declarative month-year fragment of the date-range grammar: a
case-insensitive month abbreviation, at least one whitespace character,
and four digits; or four digits alone. -/
def IsMonthYearL (l : List Char) : Prop :=
  (∃ x y z w ds, l = x :: y :: z :: (w ++ ds) ∧ isMonthTriple x y z = true ∧
    w ≠ [] ∧ w.all isWsC = true ∧ ds.length = 4 ∧ ds.all isDigitC = true) ∨
  (l.length = 4 ∧ l.all isDigitC = true)

/-- Declarative case-insensitive Present literal. -/
def IsPresentL (l : List Char) : Prop :=
  l.map asciiLower = ['p', 'r', 'e', 's', 'e', 'n', 't']

/-- The full grammar recognized by the date-range regex, stated
declaratively: after stripping, optional whitespace, a month-year
fragment, optional whitespace, a dash, optional whitespace, an optional
right-hand side (month-year or Present), optional whitespace; the text
itself must be non-empty and contain a dash. -/
def GeneralDateShape (text : String) : Prop :=
  text ≠ "" ∧ '-' ∈ text.data ∧
  ∃ w0 my w1 w2 rhs w3,
    stripL text.data = w0 ++ my ++ w1 ++ '-' :: (w2 ++ rhs ++ w3) ∧
    w0.all isWsC = true ∧ IsMonthYearL my ∧ w1.all isWsC = true ∧
    w2.all isWsC = true ∧ w3.all isWsC = true ∧
    (rhs = [] ∨ IsMonthYearL rhs ∨ IsPresentL rhs)

/-- The canonical URL form of the specification: starts with http,
carries no query string or fragment, no trailing slash, and is fully
lower-cased. -/
def IsCanonicalUrl (u : String) : Prop :=
  startsWithL ['h', 't', 't', 'p'] u.data = true ∧ '?' ∉ u.data ∧
    '#' ∉ u.data ∧ u.data.getLast? ≠ some '/' ∧ u.data.map asciiLower = u.data

/-- Exact vocabulary membership in the sense of the tie-break claim:
the token itself, or one of its parts under the separator splits the
extraction uses, is an exact member of the employment-type
vocabulary. -/
def exactVocabMember (t : String) : Bool :=
  LINKEDIN_EMPLOYMENT_TYPES.contains (pyStrip (asciiLowerStr t)) ||
    (["·", ",", "-", "•"].any
      (fun sep => (pySplit sep t).any
        (fun part => LINKEDIN_EMPLOYMENT_TYPES.contains (asciiLowerStr (pyStrip part)))))

/-! ## Theorems -/

/-- C10: there exist inputs, such as Contractor, on which the
employment-type membership test succeeds through substring containment
of the vocabulary entry contract, while employment-type extraction
returns None; consequently a position whose trailing element is such a
token takes the employment-type branch of the classifier yet leaves the
employment_type field of the parsed position unset (None). -/
theorem c10_containment_gap_unset_employment :
    is_employment_type "Contractor" = true ∧
    extract_employment_type "Contractor" = none ∧
    (parsePositionInfo
      [⟨"Engineer", "Engineer"⟩, ⟨"Acme", "Acme"⟩,
       ⟨"Jan 2020 - Dec 2020 · 1 yr", "Jan 2020 - Dec 2020 · 1 yr"⟩,
       ⟨"Contractor", "Contractor"⟩]).employment_type = none ∧
    (parsePositionInfo
      [⟨"Engineer", "Engineer"⟩, ⟨"Acme", "Acme"⟩,
       ⟨"Jan 2020 - Dec 2020 · 1 yr", "Jan 2020 - Dec 2020 · 1 yr"⟩,
       ⟨"Contractor", "Contractor"⟩]).location = "" := by
  refine ⟨by decide, by decide, by decide, by decide⟩

/-- Membership after order-preserving deduplication implies membership
in the original list. -/
theorem mem_dedupKeepFirst {x : String} {xs : List String} :
    x ∈ dedupKeepFirst xs → x ∈ xs := by
  have h : ∀ (xs : List String) (acc : List String),
      x ∈ xs.foldl (fun acc x => if acc.contains x then acc else acc ++ [x]) acc →
      x ∈ acc ∨ x ∈ xs := by
    intro xs
    induction xs with
    | nil => intro acc h; exact Or.inl h
    | cons y ys ih =>
      intro acc h
      simp only [List.foldl_cons] at h
      rcases ih _ h with h1 | h1
      · by_cases hc : acc.contains y = true
        · rw [if_pos hc] at h1
          exact Or.inl h1
        · rw [if_neg hc] at h1
          rcases List.mem_append.mp h1 with h2 | h2
          · exact Or.inl h2
          · simp only [List.mem_singleton] at h2
            exact Or.inr (h2 ▸ List.mem_cons_self y ys)
      · exact Or.inr (List.mem_cons_of_mem y h1)
  intro hx
  rcases h xs [] hx with h1 | h1
  · cases h1
  · exact h1

/-- Every fragment produced by the embedded-skills-line parser passes
the shared skill filter. -/
theorem skillsFromLine_clean {s line : String} :
    s ∈ skillsFromLine line → cleanSkillKeep s = true := by
  intro hmem
  simp only [skillsFromLine] at hmem
  by_cases h1 : pyStrip ⟨line.data.drop 7⟩ = ""
  · rw [if_neg (fun hc => hc h1)] at hmem
    simp at hmem
  · rw [if_pos h1] at hmem
    by_cases h2 : (if skillsLineStopWords.any (fun w => pyIn w (asciiLowerStr (pyStrip ⟨line.data.drop 7⟩))) = true
        then truncateAtBreakWord (pySplitWsStr (pyStrip ⟨line.data.drop 7⟩))
        else pyStrip ⟨line.data.drop 7⟩) = ""
    · rw [if_neg (fun hc => hc h2)] at hmem
      simp at hmem
    · rw [if_pos h2] at hmem
      exact (List.mem_filter.mp hmem).2

/-- One step of the mixed-content line loop only ever adds skills that
pass the shared filter. -/
theorem descSkillsStep_clean {fr pr : String → String → Nat}
    {st : List String × List String} {rawLine s : String} :
    s ∈ (descSkillsStep fr pr st rawLine).2 → s ∈ st.2 ∨ cleanSkillKeep s = true := by
  intro h
  simp only [descSkillsStep] at h
  by_cases h1 : (pyStrip rawLine == "") = true
  · rw [if_pos h1] at h
    exact Or.inl h
  · rw [if_neg h1] at h
    by_cases h2 : startsWithL "Skills:".data (pyStrip rawLine).data = true
    · rw [if_pos h2] at h
      rcases List.mem_append.mp h with h3 | h3
      · exact Or.inl h3
      · exact Or.inr (skillsFromLine_clean h3)
    · rw [if_neg h2] at h
      by_cases h3 : ((!descriptionExcludeWords.any fun w => pyIn w (asciiLowerStr (pyStrip rawLine))) &&
          !is_content_same fr pr (pyStrip rawLine) st.1 80) = true
      · rw [if_pos h3] at h
        exact Or.inl h
      · rw [if_neg h3] at h
        exact Or.inl h

/-- The line-loop fold only ever adds skills that pass the shared
filter. -/
theorem foldl_descSkillsStep_clean {fr pr : String → String → Nat}
    {lines : List String} {st : List String × List String} {s : String} :
    s ∈ (lines.foldl (descSkillsStep fr pr) st).2 →
    s ∈ st.2 ∨ cleanSkillKeep s = true := by
  induction lines generalizing st with
  | nil => intro h; exact Or.inl h
  | cons l ls ih =>
    intro h
    simp only [List.foldl_cons] at h
    rcases ih h with h1 | h1
    · exact descSkillsStep_clean h1
    · exact Or.inr h1

/-- The filter conjuncts unpacked. -/
theorem cleanSkillKeep_props {s : String} (h : cleanSkillKeep s = true) :
    pyInC '\n' s = false ∧
    ∀ w ∈ skillFilterWords, pyIn w (asciiLowerStr s) = false := by
  simp only [cleanSkillKeep, Bool.and_eq_true, Bool.not_eq_true'] at h
  refine ⟨h.1.2, ?_⟩
  intro w hw
  have h2 := h.2
  rw [List.any_eq_false] at h2
  simpa using h2 w hw

/-- C9: the splitter maps the example input Skills: Java · Python ·
University of Example to the skills Java and Python in order (for every
choice of the external fuzzy-similarity collaborators, which this
branch never consults), and no string containing a newline or an
institution-name keyword ever appears in a returned skills list. -/
theorem c9_skills_extraction :
    (∀ fr pr : String → String → Nat,
      extract_description_and_skills fr pr
        "Skills: Java · Python · University of Example" = ("", ["Java", "Python"])) ∧
    (∀ (fr pr : String → String → Nat) (text s : String),
      s ∈ (extract_description_and_skills fr pr text).2 →
      pyInC '\n' s = false ∧
      ∀ w ∈ skillFilterWords, pyIn w (asciiLowerStr s) = false) := by
  constructor
  · intro fr pr
    rfl
  · intro fr pr text s hs
    simp only [extract_description_and_skills] at hs
    by_cases h1 : (text == "") = true
    · rw [if_pos h1] at hs
      simp at hs
    · rw [if_neg h1] at hs
      by_cases h2 : startsWithL "Skills:".data text.data = true
      · rw [if_pos h2] at hs
        by_cases h3 : pyStrip (pyReplace "Skills:" "" text) = ""
        · rw [if_neg (fun hc => hc h3)] at hs
          simp at hs
        · rw [if_pos h3] at hs
          exact cleanSkillKeep_props (List.mem_filter.mp hs).2
      · rw [if_neg h2] at hs
        have h4 := mem_dedupKeepFirst hs
        rcases foldl_descSkillsStep_clean h4 with h5 | h5
        · simp at h5
        · exact cleanSkillKeep_props h5

/-- Witness for the hypothesized part of the C9 theorem at the example
input. -/
theorem c9_skills_extraction_witness :
    "Java" ∈ (extract_description_and_skills (fun _ _ => 0) (fun _ _ => 0)
      "Skills: Java · Python · University of Example").2 ∧
    (pyInC '\n' "Java" = false ∧
      ∀ w ∈ skillFilterWords, pyIn w (asciiLowerStr "Java") = false) :=
  ⟨by decide, c9_skills_extraction.2 (fun _ _ => 0) (fun _ _ => 0)
    "Skills: Java · Python · University of Example" "Java" (by decide)⟩

/-- C7 counterexample: the very example of the claim, the location
string Jan 2020, Remote, contains the stray date-like substring Jan
2020, yet the parsed position keeps it in the location field, because
the validation only fires when the location contains a middle dot and
some dot-separated part is a full date range. -/
theorem c7_counterexample_location_kept :
    (parsePositionInfo
      [⟨"Engineer", "Engineer"⟩, ⟨"Acme", "Acme"⟩,
       ⟨"Jan 2020 - Dec 2020 · 1 yr", "Jan 2020 - Dec 2020 · 1 yr"⟩,
       ⟨"Jan 2020, Remote", "Jan 2020, Remote"⟩]).location = "Jan 2020, Remote" ∧
    pyIn "Jan 2020" "Jan 2020, Remote" = true ∧
    validateLocation "Jan 2020, Remote" = "Jan 2020, Remote" := by
  refine ⟨by decide, by decide, by decide⟩

/-- C7 amended: the location validation of _parse_position_info clears
a location string exactly when it is non-empty, contains a middle dot,
and some dot-separated part is a full date range; a location without
any middle dot is always kept, whatever date-like text it contains, a
location none of whose dot-separated parts is a full date range is
also kept, and an empty validation result can only come from an empty
input or from an input satisfying the dot and date-range-part
conditions. -/
theorem c7_location_validation_characterized :
    ∀ loc : String,
      (pyInC '·' loc = false → validateLocation loc = loc) ∧
      (loc ≠ "" → pyInC '·' loc = true →
        (pySplit "·" loc).any (fun part => is_date_range (pyStrip part)) = true →
        validateLocation loc = "") ∧
      ((pySplit "·" loc).any (fun part => is_date_range (pyStrip part)) = false →
        validateLocation loc = loc) ∧
      (validateLocation loc = "" →
        loc = "" ∨ (pyInC '·' loc = true ∧
          (pySplit "·" loc).any (fun part => is_date_range (pyStrip part)) = true)) := by
  intro loc
  refine ⟨?_, ?_, ?_, ?_⟩
  · intro h
    simp [validateLocation, h]
  · intro h1 h2 h3
    simp [validateLocation, h1, h2, h3]
  · intro h
    simp [validateLocation, h]
  · intro h
    by_cases h1 : loc = ""
    · exact Or.inl h1
    · by_cases h2 : pyInC '·' loc = true
      · by_cases h3 : (pySplit "·" loc).any
            (fun part => is_date_range (pyStrip part)) = true
        · exact Or.inr ⟨h2, h3⟩
        · rw [Bool.not_eq_true] at h3
          have hk : validateLocation loc = loc := by
            simp [validateLocation, h3]
          rw [hk] at h
          exact absurd h h1
      · rw [Bool.not_eq_true] at h2
        have hk : validateLocation loc = loc := by
          simp [validateLocation, h2]
        rw [hk] at h
        exact absurd h h1

/-- Witness for the C7 amended theorem: a dot-free location with an
embedded date fragment is kept, a dot-separated date range is cleared,
a dot-containing location with no full date-range part is kept, and
the cleared example satisfies the necessity conditions. -/
theorem c7_location_validation_witness :
    (pyInC '·' "Jan 2020, Remote" = false ∧
      validateLocation "Jan 2020, Remote" = "Jan 2020, Remote") ∧
    (("Jan 2020 - Dec 2020 · Remote" : String) ≠ "" ∧
      pyInC '·' "Jan 2020 - Dec 2020 · Remote" = true ∧
      (pySplit "·" "Jan 2020 - Dec 2020 · Remote").any
        (fun part => is_date_range (pyStrip part)) = true ∧
      validateLocation "Jan 2020 - Dec 2020 · Remote" = "") ∧
    ((pySplit "·" "Remote · Hybrid").any
        (fun part => is_date_range (pyStrip part)) = false ∧
      validateLocation "Remote · Hybrid" = "Remote · Hybrid") ∧
    (("Jan 2020 - Dec 2020 · Remote" : String) = "" ∨
      (pyInC '·' "Jan 2020 - Dec 2020 · Remote" = true ∧
        (pySplit "·" "Jan 2020 - Dec 2020 · Remote").any
          (fun part => is_date_range (pyStrip part)) = true)) :=
  ⟨⟨by decide, (c7_location_validation_characterized "Jan 2020, Remote").1 (by decide)⟩,
   ⟨by decide, by decide, by decide,
    (c7_location_validation_characterized "Jan 2020 - Dec 2020 · Remote").2.1
      (by decide) (by decide) (by decide)⟩,
   ⟨by decide,
    (c7_location_validation_characterized "Remote · Hybrid").2.2.1 (by decide)⟩,
   (c7_location_validation_characterized "Jan 2020 - Dec 2020 · Remote").2.2.2
     (by decide)⟩

/-- C6 counterexample: the token Contractor, Ontario passes the
employment-type containment test and carries geographic indicators (a
comma and the keyword ontario), it is not an exact vocabulary member
nor has an exact separator-split part, yet the classifier takes the
employment-type branch and stores nothing in location; it is not
classified as location as the tie-break of the claim would demand.
Also, in the code no token can satisfy both heuristics: the location
heuristic rejects every employment-type match outright. -/
theorem c6_counterexample_tiebreak :
    is_employment_type "Contractor, Ontario" = true ∧
    hasLocationIndicator "Contractor, Ontario" = true ∧
    is_geographic_location "Contractor, Ontario" = false ∧
    exactVocabMember "Contractor, Ontario" = false ∧
    classifySmart (some "") "Contractor, Ontario" = (none, "") ∧
    (parsePositionInfo
      [⟨"Engineer", "Engineer"⟩, ⟨"Acme", "Acme"⟩,
       ⟨"Jan 2020 - Dec 2020 · 1 yr", "Jan 2020 - Dec 2020 · 1 yr"⟩,
       ⟨"Contractor, Ontario", "Contractor, Ontario"⟩]).location = "" := by
  refine ⟨by decide, by decide, by decide, by decide, by decide, by decide⟩

/-- C6 amended: no token satisfies both code heuristics, because
is_geographic_location returns false for every employment-type match;
the classifier resolves in favor of employment-type on any containment
match, exact vocabulary membership or not, clearing the location; and a
token failing the employment-type test is stored as location whether or
not the geographic heuristic fires. -/
theorem c6_classifier_tiebreak :
    ∀ t : String,
      (is_employment_type t = true → is_geographic_location t = false) ∧
      (is_employment_type t = true →
        classifySmart (some "") t = (extract_employment_type t, "")) ∧
      (is_employment_type t = false → classifySmart (some "") t = (some "", t)) := by
  intro t
  refine ⟨?_, ?_, ?_⟩
  · intro h
    by_cases he : (t == "") = true
    · rw [is_geographic_location, if_pos he]
    · rw [is_geographic_location, if_neg he, if_pos h]
  · intro h
    simp [classifySmart, h, empFalsy]
  · intro h
    simp [classifySmart, h]

/-- Witness for the C6 amended theorem at a containment-only token and
at a plain location token. -/
theorem c6_classifier_tiebreak_witness :
    (is_employment_type "Contractor, Ontario" = true ∧
      is_geographic_location "Contractor, Ontario" = false ∧
      classifySmart (some "") "Contractor, Ontario" =
        (extract_employment_type "Contractor, Ontario", "")) ∧
    (is_employment_type "Berlin, Germany" = false ∧
      classifySmart (some "") "Berlin, Germany" = (some "", "Berlin, Germany")) :=
  ⟨⟨by decide, (c6_classifier_tiebreak "Contractor, Ontario").1 (by decide),
    (c6_classifier_tiebreak "Contractor, Ontario").2.1 (by decide)⟩,
   ⟨by decide, (c6_classifier_tiebreak "Berlin, Germany").2.2 (by decide)⟩⟩

/-- Lookup after overwrite-or-append insertion finds the inserted
value. -/
theorem lookupKey_dinsert_self (m : List (String × String)) (k v : String) :
    lookupKey (dinsert m k v) k = some v := by
  induction m with
  | nil => simp [dinsert, lookupKey]
  | cons p ps ih =>
    by_cases h : (p.1 == k) = true
    · simp [dinsert, h, lookupKey]
    · simp only [dinsert, h, if_neg, Bool.false_eq_true, not_false_iff]
      simpa [lookupKey, List.find?, h] using ih

/-- Insertion at one key leaves lookups at other keys unchanged. -/
theorem lookupKey_dinsert_ne (m : List (String × String)) (k v k' : String)
    (h : k' ≠ k) : lookupKey (dinsert m k v) k' = lookupKey m k' := by
  induction m with
  | nil =>
    have : (k == k') = false := by
      simpa using fun he => h (he.symm)
    simp [dinsert, lookupKey, List.find?, this]
  | cons p ps ih =>
    by_cases hp : (p.1 == k) = true
    · have hp' : p.1 = k := by simpa using hp
      have h1 : (k == k') = false := by
        simpa using fun he => h he.symm
      have h2 : (p.1 == k') = false := by
        rw [hp']
        exact h1
      simp [dinsert, hp, lookupKey, List.find?, h1, h2]
    · by_cases hq : (p.1 == k') = true
      · simp [dinsert, hp, lookupKey, List.find?, hq]
      · simp only [dinsert, hp, if_neg, Bool.false_eq_true, not_false_iff]
        simpa [lookupKey, List.find?, hq] using ih

/-- Lookup of a recorded section outcome at its own key, when the key
was not present before. -/
theorem lookupKey_recErr_self (m : List (String × String)) (k : String)
    (o : Option String) (h : lookupKey m k = none) :
    lookupKey (recErr m k o) k = o := by
  cases o with
  | none => exact h
  | some e => exact lookupKey_dinsert_self m k e

/-- Recording at one key leaves lookups at other keys unchanged. -/
theorem lookupKey_recErr_ne (m : List (String × String)) (k : String)
    (o : Option String) (k' : String) (h : k' ≠ k) :
    lookupKey (recErr m k o) k' = lookupKey m k' := by
  cases o with
  | none => rfl
  | some e => exact lookupKey_dinsert_ne m k e k' h

/-- Every item error key is at least twenty characters long. -/
theorem empErrKey_length (i : Nat) : 20 ≤ (empErrKey i).length := by
  have h : (empErrKey i).length = ("employee_extraction_" : String).length + (Nat.repr i).length :=
    String.length_append _ _
  have h2 : ("employee_extraction_" : String).length = 20 := rfl
  omega

/-- A key shorter than twenty characters is never an item error key. -/
theorem ne_empErrKey_of_short {k : String} (hk : k.length < 20) (i : Nat) :
    k ≠ empErrKey i := by
  intro h
  have := empErrKey_length i
  rw [← h] at this
  omega

/-- A non-raising item leaves the error dictionary untouched. -/
theorem processItem_errors_none {i : Nat} {it : EmpItem} {st : EmpState}
    (h : it.raises = none) : (processItem i it st).errors = st.errors := by
  simp only [processItem, h]
  split
  · rfl
  · split
    · rfl
    · split <;> rfl

/-- Item processing never disturbs lookups at keys shorter than the
item error keys; in particular at the four section names. -/
theorem processItem_errors_lookup (i : Nat) (it : EmpItem) (st : EmpState)
    {k : String} (hk : k.length < 20) :
    lookupKey (processItem i it st).errors k = lookupKey st.errors k := by
  cases hr : it.raises with
  | none => rw [processItem_errors_none hr]
  | some m =>
    simp only [processItem, hr]
    exact lookupKey_dinsert_ne _ _ _ _ (ne_empErrKey_of_short hk i)

/-- The item loop never disturbs lookups at short keys. -/
theorem processItemsFrom_errors_lookup (items : List EmpItem) (i : Nat)
    (st : EmpState) {k : String} (hk : k.length < 20) :
    lookupKey (processItemsFrom i items st).errors k = lookupKey st.errors k := by
  induction items generalizing i st with
  | nil => rfl
  | cons it rest ih =>
    simp only [processItemsFrom]
    rw [ih, processItem_errors_lookup _ _ _ hk]

/-- Unfolding of the pagination loop when the budget is already
exceeded. -/
theorem runPages_over (pages : List (List EmpItem)) (pn mp : Nat) (st : EmpState)
    (h : ¬pn ≤ mp) : runPages pages pn mp st = (st, .budgetReached) := by
  rw [runPages.eq_def]
  dsimp only
  rw [if_neg h]

/-- Unfolding of the pagination loop when no result page loads. -/
theorem runPages_nil (pn mp : Nat) (st : EmpState) (h : pn ≤ mp) :
    runPages [] pn mp st = (st, .exhausted) := by
  rw [runPages.eq_def]
  dsimp only
  rw [if_pos h]

/-- Unfolding of the pagination loop on an empty result page. -/
theorem runPages_cons_empty (rest : List (List EmpItem)) (pn mp : Nat)
    (st : EmpState) (h : pn ≤ mp) :
    runPages ([] :: rest) pn mp st = (st, .exhausted) := by
  rw [runPages.eq_def]
  dsimp only
  rw [if_pos h]
  rfl

/-- Unfolding of the pagination loop on a non-empty page: extract the
page, then advance, stop exhausted, or stop on the budget. -/
theorem runPages_cons (it0 : EmpItem) (items : List EmpItem)
    (rest : List (List EmpItem)) (pn mp : Nat) (st : EmpState) (h : pn ≤ mp) :
    runPages ((it0 :: items) :: rest) pn mp st =
      if pn < mp then
        match rest with
        | [] => (processPage st (it0 :: items), .exhausted)
        | r :: rs => runPages (r :: rs) (pn + 1) mp (processPage st (it0 :: items))
      else (processPage st (it0 :: items), .budgetReached) := by
  rw [runPages.eq_def]
  dsimp only
  rw [if_pos h]
  rfl

/-- The pagination loop never disturbs lookups at short keys. -/
theorem runPages_errors_lookup (pages : List (List EmpItem)) (pn mp : Nat)
    (st : EmpState) {k : String} (hk : k.length < 20) :
    lookupKey (runPages pages pn mp st).1.errors k = lookupKey st.errors k := by
  induction pages generalizing pn st with
  | nil =>
    by_cases h : pn ≤ mp
    · rw [runPages_nil _ _ _ h]
    · rw [runPages_over _ _ _ _ h]
  | cons items rest ih =>
    by_cases h : pn ≤ mp
    · match items with
      | [] => rw [runPages_cons_empty _ _ _ _ h]
      | it0 :: its =>
        rw [runPages_cons _ _ _ _ _ _ h]
        by_cases h2 : pn < mp
        · rw [if_pos h2]
          match rest with
          | [] => exact processItemsFrom_errors_lookup _ _ _ hk
          | r :: rs =>
            rw [ih]
            exact processItemsFrom_errors_lookup _ _ _ hk
        · rw [if_neg h2]
          exact processItemsFrom_errors_lookup _ _ _ hk
    · rw [runPages_over _ _ _ _ h]

/-- Section-name lookups in the pre-employees error dictionary of the
company orchestrator. -/
theorem companyErrs_core_lookup (b d a : Option String) :
    lookupKey (recErr (recErr (recErr [] "basic_info" b) "details" d)
        "affiliated_pages" a) "basic_info" = b ∧
    lookupKey (recErr (recErr (recErr [] "basic_info" b) "details" d)
        "affiliated_pages" a) "details" = d ∧
    lookupKey (recErr (recErr (recErr [] "basic_info" b) "details" d)
        "affiliated_pages" a) "affiliated_pages" = a ∧
    lookupKey (recErr (recErr (recErr [] "basic_info" b) "details" d)
        "affiliated_pages" a) "employees" = none := by
  refine ⟨?_, ?_, ?_, ?_⟩
  · rw [lookupKey_recErr_ne _ _ _ _ (by decide), lookupKey_recErr_ne _ _ _ _ (by decide)]
    exact lookupKey_recErr_self _ _ _ rfl
  · rw [lookupKey_recErr_ne _ _ _ _ (by decide)]
    exact lookupKey_recErr_self _ _ _
      (by rw [lookupKey_recErr_ne _ _ _ _ (by decide)]; rfl)
  · exact lookupKey_recErr_self _ _ _
      (by rw [lookupKey_recErr_ne _ _ _ _ (by decide),
              lookupKey_recErr_ne _ _ _ _ (by decide)]; rfl)
  · rw [lookupKey_recErr_ne _ _ _ _ (by decide), lookupKey_recErr_ne _ _ _ _ (by decide),
        lookupKey_recErr_ne _ _ _ _ (by decide)]
    rfl

/-- C1 amended: on the company side the scraping_errors dictionary maps
each of the four section names to exactly the exception outcome of that
section (none when the section completed or was not scheduled), item
error keys never colliding with section names; on the person side no
scraping run ever records any entry, whatever its sections did. -/
theorem c1_section_error_accounting :
    (∀ (b d a e : Option String) (fl : Bool) (mp : Nat)
        (pages : List (List EmpItem)),
      lookupKey (companyScrapeProfile b d a fl mp pages e).scraping_errors
          "basic_info" = b ∧
      lookupKey (companyScrapeProfile b d a fl mp pages e).scraping_errors
          "details" = d ∧
      lookupKey (companyScrapeProfile b d a fl mp pages e).scraping_errors
          "affiliated_pages" = (if fl then a else none) ∧
      lookupKey (companyScrapeProfile b d a fl mp pages e).scraping_errors
          "employees" = (if mp > 0 then e else none)) ∧
    (∀ (ok : Bool) (items : List (Except String (List Experience))),
      (personScrapeProfile ok items).scraping_errors = []) := by
  constructor
  · intro b d a e fl mp pages
    obtain ⟨h1, h2, h3, h4⟩ := companyErrs_core_lookup b d (if fl then a else none)
    by_cases hmp : mp > 0
    · simp only [companyScrapeProfile, if_pos hmp]
      refine ⟨?_, ?_, ?_, ?_⟩
      · rw [lookupKey_recErr_ne _ _ _ _ (by decide),
            runPages_errors_lookup _ _ _ _ (by decide)]
        exact h1
      · rw [lookupKey_recErr_ne _ _ _ _ (by decide),
            runPages_errors_lookup _ _ _ _ (by decide)]
        exact h2
      · rw [lookupKey_recErr_ne _ _ _ _ (by decide),
            runPages_errors_lookup _ _ _ _ (by decide)]
        exact h3
      · exact lookupKey_recErr_self _ _ _
          (by rw [runPages_errors_lookup _ _ _ _ (by decide)]; exact h4)
    · simp only [companyScrapeProfile, if_neg hmp]
      exact ⟨h1, h2, h3, h4⟩
  · intro ok items
    cases ok <;> rfl

/-- C1 counterexample: a person scrape whose experience section raises
returns with an empty scraping_errors dictionary (the bare except of
experience.py swallows the failure without recording anything), so on
the person side an entry does not exist even though the section's
extraction raised an unrecovered error; the same happens when a single
item raises. -/
theorem c1_counterexample_person_silent_failure :
    (personScrapeProfile false [Except.error "selector timeout"]).scraping_errors
        = [] ∧
    (personScrapeProfile false [Except.error "selector timeout"]).experiences
        = [] ∧
    (personScrapeProfile true [Except.error "selector timeout"]).scraping_errors
        = [] := by
  refine ⟨rfl, rfl, rfl⟩

/-- Splitting the item loop across a list append shifts the index by
the first part's length. -/
theorem processItemsFrom_append (l1 l2 : List EmpItem) (i : Nat) (st : EmpState) :
    processItemsFrom i (l1 ++ l2) st =
      processItemsFrom (i + l1.length) l2 (processItemsFrom i l1 st) := by
  induction l1 generalizing i st with
  | nil => simp [processItemsFrom]
  | cons it rest ih =>
    simp only [List.cons_append, processItemsFrom, List.append_eq]
    rw [ih]
    congr 1
    simp only [List.length_cons]
    omega

/-- A run over well-formed items with pairwise distinct canonical URLs,
none already seen, appends exactly one employee per item and marks all
canonical URLs seen, leaving the error dictionary alone. -/
theorem processItemsFrom_good (items : List EmpItem) (i : Nat) (st : EmpState)
    (hgood : ∀ it ∈ items, it.raises = none ∧ it.hasLink = true ∧
      pyStrip it.nameText ≠ "")
    (hnew : ∀ it ∈ items, normalize_profile_url it.url ∉ st.processed)
    (hdist : items.Pairwise
      (fun x y => normalize_profile_url x.url ≠ normalize_profile_url y.url)) :
    processItemsFrom i items st =
      { processed := st.processed ++ items.map (fun it => normalize_profile_url it.url),
        employees := st.employees ++ items.map extractedEmployee,
        errors := st.errors } := by
  induction items generalizing i st with
  | nil => simp [processItemsFrom]
  | cons it rest ih =>
    obtain ⟨hr, hl, hn⟩ := hgood it (List.mem_cons_self it rest)
    have hmem : normalize_profile_url it.url ∉ st.processed :=
      hnew it (List.mem_cons_self it rest)
    have hcont : st.processed.contains (normalize_profile_url it.url) = false := by
      by_contra hc
      rw [Bool.not_eq_false] at hc
      exact hmem (List.elem_iff.mp hc)
    have hstep : processItem i it st =
        { processed := st.processed ++ [normalize_profile_url it.url],
          employees := st.employees ++ [extractedEmployee it],
          errors := st.errors } := by
      simp [processItem, hr, hl, hcont, hmem, hn, extractedEmployee]
    simp only [processItemsFrom]
    rw [hstep, ih (i + 1) _
      (fun x hx => hgood x (List.mem_cons_of_mem it hx))
      ?_ (List.Pairwise.of_cons hdist)]
    · simp
    · intro x hx hmem
      rcases List.mem_append.mp hmem with hmem1 | hmem1
      · exact hnew x (List.mem_cons_of_mem it hx) hmem1
      · have := (List.pairwise_cons.mp hdist).1 x hx
        simp only [List.mem_singleton] at hmem1
        exact this hmem1.symm

/-- Skipping a raising item: the fold of the person experience loop is
unchanged by an error element. -/
theorem scrapeExperiencesItems_skip (pre post : List (Except String (List Experience)))
    (msg : String) :
    scrapeExperiencesItems (pre ++ Except.error msg :: post) =
      scrapeExperiencesItems (pre ++ post) := by
  have h : ∀ (l1 : List (Except String (List Experience))) (acc : List Experience),
      (l1 ++ Except.error msg :: post).foldl
        (fun acc it => match it with
          | .ok es => acc ++ es
          | .error _ => acc) acc =
      (l1 ++ post).foldl
        (fun acc it => match it with
          | .ok es => acc ++ es
          | .error _ => acc) acc := by
    intro l1
    induction l1 with
    | nil => intro acc; simp [List.foldl_cons]
    | cons x xs ih => intro acc; simp only [List.cons_append, List.foldl_cons]; exact ih _
  exact h pre []

/-- C2 amended: if exactly one item of a list-building step raises,
every other item is still extracted, in order; the company employees
step records exactly one error entry, keyed by the raising item's
index, while the person experience step records nothing at all. -/
theorem c2_single_item_failure_isolation :
    (∀ (pre post : List EmpItem) (bad : EmpItem) (msg : String),
      bad.raises = some msg →
      (∀ it ∈ pre ++ post, it.raises = none ∧ it.hasLink = true ∧
        pyStrip it.nameText ≠ "") →
      (pre ++ post).Pairwise
        (fun x y => normalize_profile_url x.url ≠ normalize_profile_url y.url) →
      (processItemsFrom 0 (pre ++ bad :: post) {}).employees =
        (pre ++ post).map extractedEmployee ∧
      (processItemsFrom 0 (pre ++ bad :: post) {}).errors =
        [(empErrKey pre.length, msg)]) ∧
    (∀ (pre post : List (Except String (List Experience))) (msg : String),
      (personScrapeProfile true (pre ++ Except.error msg :: post)).experiences =
        scrapeExperiencesItems (pre ++ post) ∧
      (personScrapeProfile true (pre ++ Except.error msg :: post)).scraping_errors
        = []) := by
  constructor
  · intro pre post bad msg hbad hgood hdist
    have hpairs := List.pairwise_append.mp hdist
    have hpre := processItemsFrom_good pre 0 {}
      (fun x hx => hgood x (List.mem_append_left post hx))
      (fun x _ hc => by simp at hc)
      hpairs.1
    have hbadstep : ∀ st : EmpState, processItem pre.length bad st =
        { st with errors := dinsert st.errors (empErrKey pre.length) msg } := by
      intro st
      simp [processItem, hbad]
    have hpostnew : ∀ x ∈ post, normalize_profile_url x.url ∉
        pre.map (fun it => normalize_profile_url it.url) := by
      intro x hx hmem
      simp only [List.mem_map] at hmem
      obtain ⟨y, hy, hxy⟩ := hmem
      exact hpairs.2.2 y hy x hx hxy
    have hpost := processItemsFrom_good post (pre.length + 1)
      { processed := pre.map (fun it => normalize_profile_url it.url),
        employees := pre.map extractedEmployee,
        errors := [(empErrKey pre.length, msg)] }
      (fun x hx => hgood x (List.mem_append_right pre hx))
      hpostnew hpairs.2.1
    rw [processItemsFrom_append, hpre]
    simp only [List.nil_append, Nat.zero_add]
    have hmid : processItemsFrom pre.length (bad :: post)
        { processed := pre.map (fun it => normalize_profile_url it.url),
          employees := pre.map extractedEmployee, errors := [] } =
        processItemsFrom (pre.length + 1) post
          { processed := pre.map (fun it => normalize_profile_url it.url),
            employees := pre.map extractedEmployee,
            errors := [(empErrKey pre.length, msg)] } := by
      simp only [processItemsFrom]
      rw [hbadstep]
      rfl
    rw [hmid, hpost]
    constructor
    · simp [List.map_append]
    · rfl
  · intro pre post msg
    constructor
    · simp only [personScrapeProfile, personScrapeExperiences, if_pos]
      simp only [List.nil_append]
      exact scrapeExperiencesItems_skip pre post msg
    · rfl

/-- C2 witness: one raising item among two good ones. -/
theorem c2_single_item_failure_isolation_witness :
    ((⟨some "boom", true, "/in/bad", "Bad", ""⟩ : EmpItem).raises = some "boom" ∧
      (∀ it ∈ ([⟨none, true, "/in/alice", "Alice", ""⟩] ++
          [⟨none, true, "/in/bob", "Bob", ""⟩] : List EmpItem),
        it.raises = none ∧ it.hasLink = true ∧ pyStrip it.nameText ≠ "") ∧
      ([⟨none, true, "/in/alice", "Alice", ""⟩] ++
          [⟨none, true, "/in/bob", "Bob", ""⟩] : List EmpItem).Pairwise
        (fun x y => normalize_profile_url x.url ≠ normalize_profile_url y.url)) ∧
    ((processItemsFrom 0 ([⟨none, true, "/in/alice", "Alice", ""⟩] ++
        (⟨some "boom", true, "/in/bad", "Bad", ""⟩ : EmpItem) ::
        [⟨none, true, "/in/bob", "Bob", ""⟩]) {}).employees =
      ([⟨none, true, "/in/alice", "Alice", ""⟩] ++
        [⟨none, true, "/in/bob", "Bob", ""⟩] : List EmpItem).map extractedEmployee ∧
      (processItemsFrom 0 ([⟨none, true, "/in/alice", "Alice", ""⟩] ++
        (⟨some "boom", true, "/in/bad", "Bad", ""⟩ : EmpItem) ::
        [⟨none, true, "/in/bob", "Bob", ""⟩]) {}).errors =
      [(empErrKey ([⟨none, true, "/in/alice", "Alice", ""⟩] : List EmpItem).length,
        "boom")]) :=
  ⟨⟨rfl, by decide, by decide⟩,
   c2_single_item_failure_isolation.1
     [⟨none, true, "/in/alice", "Alice", ""⟩]
     [⟨none, true, "/in/bob", "Bob", ""⟩]
     ⟨some "boom", true, "/in/bad", "Bad", ""⟩ "boom" rfl (by decide) (by decide)⟩

/-- A raising item only records its error key. -/
theorem processItem_raising (i : Nat) (it : EmpItem) (st : EmpState) (m : String)
    (hr : it.raises = some m) :
    processItem i it st = { st with errors := dinsert st.errors (empErrKey i) m } := by
  simp [processItem, hr]

/-- An item without profile link is skipped entirely. -/
theorem processItem_nolink (i : Nat) (it : EmpItem) (st : EmpState)
    (hr : it.raises = none) (hl : it.hasLink = false) :
    processItem i it st = st := by
  simp [processItem, hr, hl]

/-- An item whose canonical URL is already in the seen-set is
skipped. -/
theorem processItem_dup (i : Nat) (it : EmpItem) (st : EmpState)
    (hr : it.raises = none) (hl : it.hasLink = true)
    (hC : normalize_profile_url it.url ∈ st.processed) :
    processItem i it st = st := by
  have hc : st.processed.contains (normalize_profile_url it.url) = true :=
    List.elem_iff.mpr hC
  simp [processItem, hr, hl, hc, hC]

/-- A fresh nameless item marks its canonical URL seen and stores no
employee. -/
theorem processItem_fresh_nameless (i : Nat) (it : EmpItem) (st : EmpState)
    (hr : it.raises = none) (hl : it.hasLink = true)
    (hC : normalize_profile_url it.url ∉ st.processed)
    (hn : pyStrip it.nameText = "") :
    processItem i it st =
      { st with processed := st.processed ++ [normalize_profile_url it.url] } := by
  have hc : st.processed.contains (normalize_profile_url it.url) = false := by
    by_contra hcc
    rw [Bool.not_eq_false] at hcc
    exact hC (List.elem_iff.mp hcc)
  simp [processItem, hr, hl, hc, hC, hn]

/-- A fresh named item marks its canonical URL seen and appends the
extracted employee. -/
theorem processItem_fresh_named (i : Nat) (it : EmpItem) (st : EmpState)
    (hr : it.raises = none) (hl : it.hasLink = true)
    (hC : normalize_profile_url it.url ∉ st.processed)
    (hn : pyStrip it.nameText ≠ "") :
    processItem i it st =
      { st with
          processed := st.processed ++ [normalize_profile_url it.url],
          employees := st.employees ++ [extractedEmployee it] } := by
  have hc : st.processed.contains (normalize_profile_url it.url) = false := by
    by_contra hcc
    rw [Bool.not_eq_false] at hcc
    exact hC (List.elem_iff.mp hcc)
  simp [processItem, hr, hl, hc, hC, hn, extractedEmployee]

/-- One item step preserves the deduplication invariant: every stored
employee URL is in the seen-set and stored URLs are pairwise
distinct. -/
theorem processItem_inv (i : Nat) (it : EmpItem) (st : EmpState)
    (h1 : ∀ e ∈ st.employees, e.linkedin_url ∈ st.processed)
    (h2 : st.employees.Pairwise (fun x y => x.linkedin_url ≠ y.linkedin_url)) :
    (∀ e ∈ (processItem i it st).employees,
      e.linkedin_url ∈ (processItem i it st).processed) ∧
    (processItem i it st).employees.Pairwise
      (fun x y => x.linkedin_url ≠ y.linkedin_url) := by
  cases hr : it.raises with
  | some m =>
    rw [processItem_raising i it st m hr]
    exact ⟨h1, h2⟩
  | none =>
    cases hl : it.hasLink with
    | false =>
      rw [processItem_nolink i it st hr hl]
      exact ⟨h1, h2⟩
    | true =>
      by_cases hC : normalize_profile_url it.url ∈ st.processed
      · rw [processItem_dup i it st hr hl hC]
        exact ⟨h1, h2⟩
      · by_cases hn : pyStrip it.nameText = ""
        · rw [processItem_fresh_nameless i it st hr hl hC hn]
          exact ⟨fun e he => List.mem_append_left _ (h1 e he), h2⟩
        · rw [processItem_fresh_named i it st hr hl hC hn]
          constructor
          · intro e he
            rcases List.mem_append.mp he with he1 | he1
            · exact List.mem_append_left _ (h1 e he1)
            · simp only [List.mem_singleton] at he1
              subst he1
              exact List.mem_append_right _ (by simp [extractedEmployee])
          · rw [List.pairwise_append]
            refine ⟨h2, List.pairwise_singleton _ _, ?_⟩
            intro a ha b hb
            simp only [List.mem_singleton] at hb
            subst hb
            have hmem := h1 a ha
            intro heq
            apply hC
            have hru : (extractedEmployee it).linkedin_url =
                normalize_profile_url it.url := rfl
            rw [← hru, ← heq]
            exact hmem

/-- The item loop preserves the deduplication invariant. -/
theorem processItemsFrom_inv (items : List EmpItem) (i : Nat) (st : EmpState)
    (h1 : ∀ e ∈ st.employees, e.linkedin_url ∈ st.processed)
    (h2 : st.employees.Pairwise (fun x y => x.linkedin_url ≠ y.linkedin_url)) :
    (∀ e ∈ (processItemsFrom i items st).employees,
      e.linkedin_url ∈ (processItemsFrom i items st).processed) ∧
    (processItemsFrom i items st).employees.Pairwise
      (fun x y => x.linkedin_url ≠ y.linkedin_url) := by
  induction items generalizing i st with
  | nil => exact ⟨h1, h2⟩
  | cons it rest ih =>
    simp only [processItemsFrom]
    obtain ⟨g1, g2⟩ := processItem_inv i it st h1 h2
    exact ih (i + 1) _ g1 g2

/-- The pagination loop preserves the deduplication invariant. -/
theorem runPages_inv (pages : List (List EmpItem)) (pn mp : Nat) (st : EmpState)
    (h1 : ∀ e ∈ st.employees, e.linkedin_url ∈ st.processed)
    (h2 : st.employees.Pairwise (fun x y => x.linkedin_url ≠ y.linkedin_url)) :
    (∀ e ∈ (runPages pages pn mp st).1.employees,
      e.linkedin_url ∈ (runPages pages pn mp st).1.processed) ∧
    (runPages pages pn mp st).1.employees.Pairwise
      (fun x y => x.linkedin_url ≠ y.linkedin_url) := by
  induction pages generalizing pn st with
  | nil =>
    by_cases h : pn ≤ mp
    · rw [runPages_nil _ _ _ h]; exact ⟨h1, h2⟩
    · rw [runPages_over _ _ _ _ h]; exact ⟨h1, h2⟩
  | cons items rest ih =>
    by_cases h : pn ≤ mp
    · match items with
      | [] =>
        rw [runPages_cons_empty _ _ _ _ h]
        exact ⟨h1, h2⟩
      | it0 :: its =>
        rw [runPages_cons _ _ _ _ _ _ h]
        obtain ⟨g1, g2⟩ := processItemsFrom_inv (it0 :: its) 0 st h1 h2
        by_cases h2' : pn < mp
        · rw [if_pos h2']
          match rest with
          | [] => exact ⟨g1, g2⟩
          | r :: rs => exact ih (pn + 1) _ g1 g2
        · rw [if_neg h2']
          exact ⟨g1, g2⟩
    · rw [runPages_over _ _ _ _ h]
      exact ⟨h1, h2⟩

/-- Counting invariant of the item loop over well-formed items: for
every canonical URL the number of stored entries with that URL is one
when it has been seen and zero otherwise, and the seen-set after the
loop is the seen-set before plus the canonical URLs of the items. -/
theorem processItemsFrom_count (items : List EmpItem) (i : Nat) (st : EmpState)
    (u : String)
    (hgood : ∀ it ∈ items, it.raises = none ∧ it.hasLink = true ∧
      pyStrip it.nameText ≠ "")
    (hcnt : ((st.employees.filter (fun e => e.linkedin_url == u)).length)
      = if u ∈ st.processed then 1 else 0) :
    (((processItemsFrom i items st).employees.filter
        (fun e => e.linkedin_url == u)).length
      = if u ∈ (processItemsFrom i items st).processed then 1 else 0) ∧
    (u ∈ (processItemsFrom i items st).processed ↔
      u ∈ st.processed ∨ ∃ it ∈ items, normalize_profile_url it.url = u) := by
  induction items generalizing i st with
  | nil =>
    refine ⟨hcnt, ?_⟩
    simp [processItemsFrom]
  | cons it rest ih =>
    obtain ⟨hr, hl, hn⟩ := hgood it (List.mem_cons_self it rest)
    simp only [processItemsFrom]
    by_cases hC : normalize_profile_url it.url ∈ st.processed
    · simp only [processItem_dup i it st hr hl hC]
      obtain ⟨g1, g2⟩ := ih (i + 1) st
        (fun x hx => hgood x (List.mem_cons_of_mem it hx)) hcnt
      refine ⟨g1, ?_⟩
      rw [g2]
      constructor
      · rintro (h | h)
        · exact Or.inl h
        · exact Or.inr ⟨_, List.mem_cons_of_mem it h.choose_spec.1, h.choose_spec.2⟩
      · rintro (h | ⟨x, hx, hxu⟩)
        · exact Or.inl h
        · rcases List.mem_cons.mp hx with hx1 | hx1
          · subst hx1
            exact Or.inl (hxu ▸ hC)
          · exact Or.inr ⟨x, hx1, hxu⟩
    · simp only [processItem_fresh_named i it st hr hl hC hn]
      have hurl : (extractedEmployee it).linkedin_url =
          normalize_profile_url it.url := rfl
      have hcnt' : ((st.employees ++ [extractedEmployee it]).filter
            (fun e => e.linkedin_url == u)).length
          = if u ∈ st.processed ++ [normalize_profile_url it.url] then 1 else 0 := by
        rw [List.filter_append, List.length_append]
        by_cases hu : normalize_profile_url it.url = u
        · have h0 : u ∉ st.processed := by
            rw [← hu]; exact hC
          rw [if_neg h0] at hcnt
          have hb : ((extractedEmployee it).linkedin_url == u) = true := by
            rw [hurl, hu]
            exact beq_self_eq_true u
          simp only [List.filter_cons, hb, List.filter_nil, List.length_cons,
            List.length_nil, if_pos, ite_true]
          rw [hcnt, if_pos (List.mem_append_right _ (by simp [hu]))]
        · have hb : ((extractedEmployee it).linkedin_url == u) = false := by
            rw [hurl]
            exact beq_eq_false_iff_ne.mpr hu
          simp only [List.filter_cons, hb, List.filter_nil, List.length_nil,
            Bool.false_eq_true, if_neg, not_false_iff]
          rw [hcnt]
          have hiff : u ∈ st.processed ++ [normalize_profile_url it.url] ↔
              u ∈ st.processed := by
            simp only [List.mem_append, List.mem_singleton]
            constructor
            · rintro (h | h)
              · exact h
              · exact absurd h.symm hu
            · exact Or.inl
          by_cases hmem : u ∈ st.processed
          · rw [if_pos hmem, if_pos (hiff.mpr hmem)]
          · rw [if_neg hmem, if_neg (fun hc => hmem (hiff.mp hc))]
      obtain ⟨g1, g2⟩ := ih (i + 1)
        { st with
            processed := st.processed ++ [normalize_profile_url it.url],
            employees := st.employees ++ [extractedEmployee it] }
        (fun x hx => hgood x (List.mem_cons_of_mem it hx)) hcnt'
      refine ⟨g1, ?_⟩
      rw [g2]
      simp only [List.mem_append, List.mem_singleton, List.mem_cons]
      aesop

/-- C4: the collector never stores two entries with equal canonical
URLs (the stored URL of every employee being the canonical one), and
over well-formed items every canonical URL reached by at least one fed
URL yields exactly one stored entry, however many fed URLs canonicalize
to it. -/
theorem c4_canonical_url_dedup :
    (∀ (pages : List (List EmpItem)) (pn mp : Nat),
      ((runPages pages pn mp {}).1.employees).Pairwise
        (fun x y => x.linkedin_url ≠ y.linkedin_url)) ∧
    (∀ (items : List EmpItem) (u : String),
      (∀ it ∈ items, it.raises = none ∧ it.hasLink = true ∧
        pyStrip it.nameText ≠ "") →
      ((processItemsFrom 0 items {}).employees.filter
          (fun e => e.linkedin_url == u)).length =
        if ∃ it ∈ items, normalize_profile_url it.url = u then 1 else 0) := by
  constructor
  · intro pages pn mp
    exact (runPages_inv pages pn mp {}
      (fun e he => absurd he (List.not_mem_nil e)) List.Pairwise.nil).2
  · intro items u hgood
    obtain ⟨g1, g2⟩ := processItemsFrom_count items 0 {} u hgood (by simp)
    rw [g1]
    by_cases h : ∃ it ∈ items, normalize_profile_url it.url = u
    · rw [if_pos (g2.mpr (Or.inr h)), if_pos h]
    · rw [if_neg h, if_neg ?_]
      intro hc
      rcases g2.mp hc with hc1 | hc1
      · exact absurd hc1 (List.not_mem_nil u)
      · exact h hc1

/-- C4 witness: two URL variants of the same profile, differing in
query string, trailing slash and case, produce exactly one entry. -/
theorem c4_canonical_url_dedup_witness :
    (∀ it ∈ ([⟨none, true, "/in/Alice?ref=1", "Alice", ""⟩,
        ⟨none, true, "/in/alice/", "Alice A.", ""⟩] : List EmpItem),
      it.raises = none ∧ it.hasLink = true ∧ pyStrip it.nameText ≠ "") ∧
    ((processItemsFrom 0 ([⟨none, true, "/in/Alice?ref=1", "Alice", ""⟩,
        ⟨none, true, "/in/alice/", "Alice A.", ""⟩] : List EmpItem) {}).employees.filter
        (fun e => e.linkedin_url == "https://www.linkedin.com/in/alice")).length =
      if ∃ it ∈ ([⟨none, true, "/in/Alice?ref=1", "Alice", ""⟩,
          ⟨none, true, "/in/alice/", "Alice A.", ""⟩] : List EmpItem),
        normalize_profile_url it.url = "https://www.linkedin.com/in/alice"
      then 1 else 0 :=
  ⟨by decide,
   c4_canonical_url_dedup.2
     [⟨none, true, "/in/Alice?ref=1", "Alice", ""⟩,
      ⟨none, true, "/in/alice/", "Alice A.", ""⟩]
     "https://www.linkedin.com/in/alice" (by decide)⟩

/-- When at least budget-many non-empty pages are available, the loop
folds exactly the pages up to the budget and exits on the budget
branch. -/
theorem runPages_budget (pages : List (List EmpItem)) (pn mp : Nat) (st : EmpState)
    (h1 : pn ≤ mp) (h2 : mp - pn < pages.length)
    (h3 : ∀ p ∈ pages, p ≠ []) :
    runPages pages pn mp st =
      ((pages.take (mp - pn + 1)).foldl processPage st, .budgetReached) := by
  induction pages generalizing pn st with
  | nil => simp at h2
  | cons items rest ih =>
    match items, h3 items (List.mem_cons_self items rest) with
    | [], hne => exact absurd rfl hne
    | it0 :: its, _ =>
      rw [runPages_cons _ _ _ _ _ _ h1]
      by_cases hlt : pn < mp
      · rw [if_pos hlt]
        cases rest with
        | nil =>
          exfalso
          simp only [List.length_cons, List.length_nil] at h2
          omega
        | cons r rs =>
          dsimp only
          rw [ih (pn + 1) (processPage st (it0 :: its)) hlt
            (by simp only [List.length_cons] at h2 ⊢; omega)
            (fun p hp => h3 p (List.mem_cons_of_mem _ hp))]
          have hk : mp - pn + 1 = (mp - (pn + 1) + 1) + 1 := by omega
          rw [hk]
          simp [List.take_succ_cons, List.foldl_cons]
      · rw [if_neg hlt]
        have h0 : mp - pn = 0 := by omega
        rw [h0]
        simp [List.take_succ_cons, List.foldl_cons]

/-- When the non-empty pages run out strictly before the budget, the
loop folds them all and exits on the exhausted branch. -/
theorem runPages_exhaust (pages : List (List EmpItem)) (pn mp : Nat)
    (st : EmpState) (h1 : pn ≤ mp) (h2 : pages.length + pn ≤ mp)
    (h3 : ∀ p ∈ pages, p ≠ []) :
    runPages pages pn mp st = (pages.foldl processPage st, .exhausted) := by
  induction pages generalizing pn st with
  | nil =>
    rw [runPages_nil _ _ _ h1]
    simp
  | cons items rest ih =>
    match items, h3 items (List.mem_cons_self items rest) with
    | [], hne => exact absurd rfl hne
    | it0 :: its, _ =>
      rw [runPages_cons _ _ _ _ _ _ h1]
      have hlt : pn < mp := by
        simp only [List.length_cons] at h2
        omega
      rw [if_pos hlt]
      cases rest with
      | nil => simp
      | cons r rs =>
        dsimp only
        rw [ih (pn + 1) (processPage st (it0 :: its)) hlt
          (by simp only [List.length_cons] at h2 ⊢; omega)
          (fun p hp => h3 p (List.mem_cons_of_mem _ hp))]
        simp [List.foldl_cons]

/-- C5: on a source with at least b non-empty pages the collector with
page budget b folds exactly the first b pages (never touching page b+1)
and terminates on the budget branch (BudgetReached); when the source
runs out strictly before the budget, the collector folds every page and
terminates on the exhausted branch (Exhausted), still returning the
entries collected so far. -/
theorem c5_page_budget :
    (∀ (pages : List (List EmpItem)) (b : Nat),
      0 < b → b ≤ pages.length → (∀ p ∈ pages, p ≠ []) →
      runPages pages 1 b {} =
        ((pages.take b).foldl processPage {}, CollectStatus.budgetReached)) ∧
    (∀ (pages : List (List EmpItem)) (b : Nat),
      pages.length < b → (∀ p ∈ pages, p ≠ []) →
      runPages pages 1 b {} =
        (pages.foldl processPage {}, CollectStatus.exhausted)) := by
  constructor
  · intro pages b hb hlen h3
    have h := runPages_budget pages 1 b {} hb (by omega) h3
    rw [show b - 1 + 1 = b from by omega] at h
    exact h
  · intro pages b hlen h3
    exact runPages_exhaust pages 1 b {} (by omega) (by omega) h3

/-- C5 witness: three one-item pages under budget two stop on the
budget; one page under budget two stops exhausted. -/
theorem c5_page_budget_witness :
    (0 < 2 ∧ 2 ≤ ([[⟨none, true, "/in/a", "A", ""⟩], [⟨none, true, "/in/b", "B", ""⟩],
        [⟨none, true, "/in/c", "C", ""⟩]] : List (List EmpItem)).length ∧
      (∀ p ∈ ([[⟨none, true, "/in/a", "A", ""⟩], [⟨none, true, "/in/b", "B", ""⟩],
          [⟨none, true, "/in/c", "C", ""⟩]] : List (List EmpItem)), p ≠ []) ∧
      runPages [[⟨none, true, "/in/a", "A", ""⟩], [⟨none, true, "/in/b", "B", ""⟩],
          [⟨none, true, "/in/c", "C", ""⟩]] 1 2 {} =
        ((([[⟨none, true, "/in/a", "A", ""⟩], [⟨none, true, "/in/b", "B", ""⟩],
          [⟨none, true, "/in/c", "C", ""⟩]] : List (List EmpItem)).take 2).foldl
            processPage {}, CollectStatus.budgetReached)) ∧
    (([[⟨none, true, "/in/a", "A", ""⟩]] : List (List EmpItem)).length < 2 ∧
      runPages [[⟨none, true, "/in/a", "A", ""⟩]] 1 2 {} =
        (([[⟨none, true, "/in/a", "A", ""⟩]] : List (List EmpItem)).foldl
            processPage {}, CollectStatus.exhausted)) :=
  ⟨⟨by decide, by decide, by decide,
    c5_page_budget.1 [[⟨none, true, "/in/a", "A", ""⟩], [⟨none, true, "/in/b", "B", ""⟩],
      [⟨none, true, "/in/c", "C", ""⟩]] 2 (by decide) (by decide) (by decide)⟩,
   ⟨by decide,
    c5_page_budget.2 [[⟨none, true, "/in/a", "A", ""⟩]] 2 (by decide) (by decide)⟩⟩

/-- Round trip for valid scalar values below the surrogate range. -/
theorem toNat_charOfNat (n : Nat) (h : n < 55296) : (Char.ofNat n).toNat = n := by
  rw [Char.ofNat, dif_pos (Or.inl h)]
  simp [Char.ofNatAux, Char.toNat, UInt32.ofNat', UInt32.toNat, BitVec.toNat_ofNatLt]

/-- Characters are equal when their scalar values are. -/
theorem char_eq_of_toNat_eq {x y : Char} (h : x.toNat = y.toNat) : x = y := by
  have h2 := congrArg Char.ofNat h
  rwa [Char.ofNat_toNat, Char.ofNat_toNat] at h2

/-- Scalar-value description of ASCII lower-casing. -/
theorem asciiLower_toNat (c : Char) :
    (asciiLower c).toNat =
      if 65 ≤ c.toNat ∧ c.toNat ≤ 90 then c.toNat + 32 else c.toNat := by
  unfold asciiLower
  by_cases h : 65 ≤ c.toNat ∧ c.toNat ≤ 90
  · rw [if_pos (by simp [h.1, h.2]), if_pos h]
    exact toNat_charOfNat _ (by omega)
  · rw [if_neg (by simpa using fun h1 h2 => h ⟨h1, h2⟩), if_neg h]

/-- Lower-casing a character to a scalar value below 97 forces
equality: such characters are fixed points of lower-casing. -/
theorem asciiLower_eq_low {x y : Char} (h : asciiLower x = y) (hy : y.toNat < 97) :
    x = y := by
  have h1 := asciiLower_toNat x
  rw [h] at h1
  by_cases h2 : 65 ≤ x.toNat ∧ x.toNat ≤ 90
  · rw [if_pos h2] at h1
    omega
  · rw [if_neg h2] at h1
    exact char_eq_of_toNat_eq h1.symm

/-- Membership of a low character in a list is unchanged by
lower-casing the list. -/
theorem mem_of_mem_map_asciiLower {c : Char} {l : List Char}
    (hc : c.toNat < 65) (h : c ∉ l.map asciiLower) : c ∉ l := by
  intro hmem
  apply h
  have : asciiLower c = c := by
    apply char_eq_of_toNat_eq
    rw [asciiLower_toNat]
    rw [if_neg (by omega)]
  exact this ▸ List.mem_map_of_mem asciiLower hmem

/-- Taking before a character distributes over an append whose first
part avoids the character. -/
theorem beforeChar_append {c : Char} {l1 : List Char} (l2 : List Char)
    (h : ∀ x ∈ l1, x ≠ c) :
    beforeChar c (l1 ++ l2) = l1 ++ beforeChar c l2 := by
  induction l1 with
  | nil => rfl
  | cons a t ih =>
    simp only [List.cons_append, beforeChar, List.takeWhile_cons]
    rw [if_pos (by simpa using h a (List.mem_cons_self a t))]
    have := ih (fun x hx => h x (List.mem_cons_of_mem a hx))
    simp only [beforeChar] at this
    rw [this]

/-- Taking before a character keeps a list that avoids it. -/
theorem beforeChar_all {c : Char} {l : List Char} (h : ∀ x ∈ l, x ≠ c) :
    beforeChar c l = l := by
  have h1 := @beforeChar_append c l [] h
  have h2 : beforeChar c [] = [] := rfl
  rw [h2] at h1
  simpa using h1

/-- Dropping while a predicate holds skips a fully-satisfying
prefix. -/
theorem dropWhile_append_all {p : Char → Bool} {l1 : List Char} (l2 : List Char)
    (h : ∀ x ∈ l1, p x = true) :
    (l1 ++ l2).dropWhile p = l2.dropWhile p := by
  induction l1 with
  | nil => rfl
  | cons a t ih =>
    simp only [List.cons_append, List.dropWhile_cons]
    rw [if_pos (h a (List.mem_cons_self a t))]
    exact ih (fun x hx => h x (List.mem_cons_of_mem a hx))

/-- Removing trailing slashes absorbs an appended run of slashes. -/
theorem rstripSlash_append_rep (l : List Char) (k : Nat) :
    rstripSlash (l ++ List.replicate k '/') = rstripSlash l := by
  unfold rstripSlash
  rw [List.reverse_append, List.reverse_replicate]
  rw [dropWhile_append_all _ (fun x hx => by
    rw [List.eq_of_mem_replicate hx]
    rfl)]

/-- A list not ending in a slash is unchanged by trailing-slash
removal. -/
theorem rstripSlash_eq_self {l : List Char} (h : l.getLast? ≠ some '/') :
    rstripSlash l = l := by
  unfold rstripSlash
  match hrev : l.reverse with
  | [] =>
    have : l = [] := by simpa using congrArg List.reverse hrev
    simp [this]
  | a :: t =>
    have ha : l.getLast? = some a := by
      rw [← List.head?_reverse, hrev]
      rfl
    have hne : (a == '/') = false := by
      rw [beq_eq_false_iff_ne]
      intro heq
      exact h (heq ▸ ha)
    rw [List.dropWhile_cons, hne]
    simp only [Bool.false_eq_true, if_neg, not_false_iff]
    rw [← hrev, List.reverse_reverse]

/-- Substring containment holds when the needle starts some suffix. -/
theorem containsSub_of_suffix_starts {m l2 : List Char} (l1 : List Char)
    (h : startsWithL m l2 = true) : containsSub (l1 ++ l2) m = true := by
  induction l1 with
  | nil =>
    cases l2 with
    | nil => simpa [containsSub] using h
    | cons c t => simp [containsSub, h]
  | cons a t ih => simp [containsSub, ih]

/-- Inverting a prefix match through a map. -/
theorem startsWithL_map_decomp {p : List Char} {f : Char → Char} :
    ∀ {l : List Char}, startsWithL p (l.map f) = true →
    ∃ pre rest, l = pre ++ rest ∧ pre.map f = p := by
  induction p with
  | nil => exact fun {l} _ => ⟨[], l, rfl, rfl⟩
  | cons a p' ih =>
    intro l h
    cases l with
    | nil => simp [startsWithL] at h
    | cons x xs =>
      simp only [List.map_cons, startsWithL, Bool.and_eq_true, beq_iff_eq] at h
      obtain ⟨pre', rest, hxs, hmap⟩ := ih h.2
      exact ⟨x :: pre', rest, by rw [hxs]; rfl, by simp [hmap, h.1]⟩

/-- Case analysis payload for the variant tails: empty, query, or
fragment. -/
theorem beforeChars_tail {t : List Char}
    (h : t = [] ∨ (∃ r, t = '?' :: r) ∨ (∃ r, t = '#' :: r)) :
    beforeChar '#' (beforeChar '?' t) = [] := by
  rcases h with h | ⟨r, h⟩ | ⟨r, h⟩
  · subst h; rfl
  · subst h
    simp [beforeChar, List.takeWhile_cons]
  · subst h
    have h1 : beforeChar '?' ('#' :: r) = '#' :: beforeChar '?' r := by
      simp [beforeChar, List.takeWhile_cons]
    rw [h1]
    simp [beforeChar, List.takeWhile_cons]

/-- Core of the convergence claim: normalizing a lower-case-canonical
base decorated with any letter case, any run of trailing slashes, and
any query or fragment tail yields the lower-cased base. -/
theorem normalize_variant (c t : String) (k : Nat)
    (h1 : startsWithL ('h' :: 't' :: 't' :: 'p' :: 's' :: ':' :: '/' :: '/' :: [])
      (asciiLowerStr c).data = true)
    (h2 : '?' ∉ (asciiLowerStr c).data) (h3 : '#' ∉ (asciiLowerStr c).data)
    (h4 : (asciiLowerStr c).data.getLast? ≠ some '/')
    (h5 : t.data = [] ∨ (∃ r, t.data = '?' :: r) ∨ (∃ r, t.data = '#' :: r)) :
    normalize_profile_url (c ++ ⟨List.replicate k '/'⟩ ++ t) = asciiLowerStr c := by
  have hmapdata : (asciiLowerStr c).data = c.data.map asciiLower := rfl
  have hudata : (c ++ ⟨List.replicate k '/'⟩ ++ t).data =
      c.data ++ (List.replicate k '/' ++ t.data) := by
    simp
  have hq : '?' ∉ c.data := mem_of_mem_map_asciiLower (by decide) (hmapdata ▸ h2)
  have hh : '#' ∉ c.data := mem_of_mem_map_asciiLower (by decide) (hmapdata ▸ h3)
  have hlast : c.data.getLast? ≠ some '/' := by
    intro hl
    apply h4
    rw [hmapdata, List.getLast?_map, hl]
    rfl
  have hcne : c.data ≠ [] := by
    intro hnil
    rw [hmapdata, hnil] at h1
    simp [startsWithL] at h1
  have hne : ((c ++ ⟨List.replicate k '/'⟩ ++ t) == "") = false := by
    rw [beq_eq_false_iff_ne]
    intro heq
    have := congrArg String.data heq
    rw [hudata] at this
    simp at this
    exact hcne this.1
  rw [normalize_profile_url, if_neg (by rw [hne]; exact Bool.false_ne_true)]
  have hjoin : (if startsWithL ['h', 't', 't', 'p']
        (c ++ ⟨List.replicate k '/'⟩ ++ t).data = true
      then c ++ ⟨List.replicate k '/'⟩ ++ t
      else urljoinBase (c ++ ⟨List.replicate k '/'⟩ ++ t)) =
      c ++ ⟨List.replicate k '/'⟩ ++ t := by
    by_cases hsw : startsWithL ['h', 't', 't', 'p']
        (c ++ ⟨List.replicate k '/'⟩ ++ t).data = true
    · rw [if_pos hsw]
    · rw [if_neg hsw]
      obtain ⟨pre, rest, hcdecomp, hpremap⟩ := startsWithL_map_decomp (hmapdata ▸ h1)
      obtain ⟨x0, p1, hp1, hf0, hm1⟩ := List.map_eq_cons_iff.mp hpremap
      obtain ⟨x1, p2, hp2, hf1, hm2⟩ := List.map_eq_cons_iff.mp hm1
      obtain ⟨x2, p3, hp3, hf2, hm3⟩ := List.map_eq_cons_iff.mp hm2
      obtain ⟨x3, p4, hp4, hf3, hm4⟩ := List.map_eq_cons_iff.mp hm3
      obtain ⟨x4, p5, hp5, hf4, hm5⟩ := List.map_eq_cons_iff.mp hm4
      obtain ⟨x5, p6, hp6, hf5, hm6⟩ := List.map_eq_cons_iff.mp hm5
      obtain ⟨x6, p7, hp7, hf6, hm7⟩ := List.map_eq_cons_iff.mp hm6
      obtain ⟨x7, p8, hp8, hf7, hm8⟩ := List.map_eq_cons_iff.mp hm7
      have hp8nil : p8 = [] := by
        cases p8 with
        | nil => rfl
        | cons y ys => simp at hm8
      have hx5 : x5 = ':' := asciiLower_eq_low hf5 (by decide)
      have hx6 : x6 = '/' := asciiLower_eq_low hf6 (by decide)
      have hx7 : x7 = '/' := asciiLower_eq_low hf7 (by decide)
      rw [urljoinBase, if_pos]
      rw [hudata, hcdecomp, hp1, hp2, hp3, hp4, hp5, hp6, hp7, hp8, hp8nil,
        hx5, hx6, hx7]
      have hform : ((x0 :: x1 :: x2 :: x3 :: x4 :: ':' :: '/' :: '/' :: ([] : List Char)) ++ rest)
            ++ (List.replicate k '/' ++ t.data) =
          [x0, x1, x2, x3, x4] ++
            (':' :: '/' :: '/' :: (rest ++ (List.replicate k '/' ++ t.data))) := by
        simp
      rw [hform]
      exact containsSub_of_suffix_starts _ (by simp [startsWithL])
  rw [hjoin]
  dsimp only
  rw [hudata]
  have hq2 : ∀ x ∈ c.data ++ List.replicate k '/', x ≠ '?' := by
    intro x hx
    rcases List.mem_append.mp hx with hx1 | hx1
    · exact fun heq => hq (heq ▸ hx1)
    · rw [List.eq_of_mem_replicate hx1]
      decide
  have hh2 : ∀ x ∈ c.data ++ List.replicate k '/', x ≠ '#' := by
    intro x hx
    rcases List.mem_append.mp hx with hx1 | hx1
    · exact fun heq => hh (heq ▸ hx1)
    · rw [List.eq_of_mem_replicate hx1]
      decide
  rw [show c.data ++ (List.replicate k '/' ++ t.data) =
      (c.data ++ List.replicate k '/') ++ t.data by simp]
  rw [beforeChar_append t.data hq2, beforeChar_append (beforeChar '?' t.data) hh2,
    beforeChars_tail h5, List.append_nil, rstripSlash_append_rep,
    rstripSlash_eq_self hlast]
  rfl

/-- C8: the profile URL normalizer maps every already-canonical URL
(http prefix, no query, no fragment, no trailing slash, lower-case) to
itself, and any two decorations of one canonical base - arbitrary
letter case, trailing-slash runs, query or fragment tails - normalize
to the same canonical string. -/
theorem c8_url_normalizer :
    (∀ u : String, IsCanonicalUrl u → normalize_profile_url u = u) ∧
    (∀ (c1 c2 t1 t2 : String) (k1 k2 : Nat),
      asciiLowerStr c1 = asciiLowerStr c2 →
      startsWithL ('h' :: 't' :: 't' :: 'p' :: 's' :: ':' :: '/' :: '/' :: [])
        (asciiLowerStr c1).data = true →
      '?' ∉ (asciiLowerStr c1).data → '#' ∉ (asciiLowerStr c1).data →
      (asciiLowerStr c1).data.getLast? ≠ some '/' →
      (t1.data = [] ∨ (∃ r, t1.data = '?' :: r) ∨ (∃ r, t1.data = '#' :: r)) →
      (t2.data = [] ∨ (∃ r, t2.data = '?' :: r) ∨ (∃ r, t2.data = '#' :: r)) →
      normalize_profile_url (c1 ++ ⟨List.replicate k1 '/'⟩ ++ t1) =
        normalize_profile_url (c2 ++ ⟨List.replicate k2 '/'⟩ ++ t2)) := by
  constructor
  · intro u hc
    obtain ⟨hsw, hq, hh, hlast, hlow⟩ := hc
    have hune : (u == "") = false := by
      rw [beq_eq_false_iff_ne]
      intro heq
      subst heq
      simp [startsWithL] at hsw
    rw [normalize_profile_url, if_neg (by rw [hune]; exact Bool.false_ne_true),
      if_pos hsw]
    dsimp only
    rw [beforeChar_all (c := '?') (l := u.data)
          (fun x hx heq => hq (by rw [← heq]; exact hx)),
        beforeChar_all (c := '#') (l := u.data)
          (fun x hx heq => hh (by rw [← heq]; exact hx)),
        rstripSlash_eq_self hlast, hlow]
  · intro c1 c2 t1 t2 k1 k2 hc h1 h2 h3 h4 ht1 ht2
    rw [normalize_variant c1 t1 k1 h1 h2 h3 h4 ht1,
        normalize_variant c2 t2 k2 (hc ▸ h1) (hc ▸ h2) (hc ▸ h3) (hc ▸ h4) ht2, hc]

/-- C8 witness: a canonical profile URL is a fixed point, and a cased,
slashed, query-and-fragment-decorated variant converges to the same
canonical string as the bare base. -/
theorem c8_url_normalizer_witness :
    (IsCanonicalUrl "https://www.linkedin.com/in/foo" ∧
      normalize_profile_url "https://www.linkedin.com/in/foo" =
        "https://www.linkedin.com/in/foo") ∧
    (asciiLowerStr "https://www.LinkedIn.com/in/Foo" =
        asciiLowerStr "https://www.linkedin.com/in/foo" ∧
      normalize_profile_url
          ("https://www.LinkedIn.com/in/Foo" ++ ⟨List.replicate 1 '/'⟩ ++ "?mini=1#top") =
        normalize_profile_url
          ("https://www.linkedin.com/in/foo" ++ ⟨List.replicate 0 '/'⟩ ++ "")) :=
  ⟨⟨⟨by decide, by decide, by decide, by decide, by decide⟩,
    c8_url_normalizer.1 "https://www.linkedin.com/in/foo"
      ⟨by decide, by decide, by decide, by decide, by decide⟩⟩,
   ⟨by decide,
    c8_url_normalizer.2 "https://www.LinkedIn.com/in/Foo" "https://www.linkedin.com/in/foo"
      "?mini=1#top" "" 1 0 (by decide) (by decide) (by decide) (by decide) (by decide)
      (Or.inr (Or.inl ⟨"mini=1#top".data, rfl⟩)) (Or.inl rfl)⟩⟩

/-- C2 counterexample: in the person experience loop a raising middle
item is skipped with no error entry at all - the aggregate's error
dictionary stays empty, so no item-indexed key is recorded for the
failing item, contrary to the claim's universal statement over every
list-building step. -/
theorem c2_counterexample_person_item_silent :
    (personScrapeProfile true
      [Except.ok [{ position_title := "Engineer", institution_name := "Acme" }],
       Except.error "malformed card",
       Except.ok [{ position_title := "Analyst", institution_name := "Initech" }]]).experiences =
      [{ position_title := "Engineer", institution_name := "Acme" },
       { position_title := "Analyst", institution_name := "Initech" }] ∧
    (personScrapeProfile true
      [Except.ok [{ position_title := "Engineer", institution_name := "Acme" }],
       Except.error "malformed card",
       Except.ok [{ position_title := "Analyst", institution_name := "Initech" }]]).scraping_errors = [] :=
  ⟨rfl, rfl⟩

/-- Whitespace characters enumerated. -/
theorem isWsC_cases {c : Char} (h : isWsC c = true) :
    c = ' ' ∨ c = '\t' ∨ c = '\n' ∨ c = '\r' ∨ c = '\x0b' ∨ c = '\x0c' := by
  simp only [isWsC, Bool.or_eq_true, beq_iff_eq] at h
  tauto

/-- A digit is not whitespace. -/
theorem not_ws_of_digit {c : Char} (h : isDigitC c = true) : isWsC c = false := by
  by_contra hc
  rw [Bool.not_eq_false] at hc
  rcases isWsC_cases hc with h1 | h1 | h1 | h1 | h1 | h1 <;>
    (subst h1; exact absurd h (by decide))

/-- A digit scalar value lies between 48 and 57. -/
theorem digit_toNat {c : Char} (h : isDigitC c = true) :
    48 ≤ c.toNat ∧ c.toNat ≤ 57 := by
  simpa [isDigitC] using h

/-- Whitespace scalar values lie below 33. -/
theorem ws_toNat {c : Char} (h : isWsC c = true) : c.toNat < 33 := by
  rcases isWsC_cases h with h1 | h1 | h1 | h1 | h1 | h1 <;> (subst h1; decide)

/-- The lowered head of a month triple is a lower-case letter. -/
theorem monthTriple_head_ge {la lb lc : Char} (h : [la, lb, lc] ∈ monthTriples) :
    97 ≤ la.toNat := by
  simp only [monthTriples, List.mem_cons, List.not_mem_nil, or_false,
    List.cons.injEq, and_true] at h
  rcases h with ⟨rfl, -⟩ | ⟨rfl, -⟩ | ⟨rfl, -⟩ | ⟨rfl, -⟩ | ⟨rfl, -⟩ | ⟨rfl, -⟩ |
    ⟨rfl, -⟩ | ⟨rfl, -⟩ | ⟨rfl, -⟩ | ⟨rfl, -⟩ | ⟨rfl, -⟩ | ⟨rfl, -⟩ <;> decide

/-- A month triple starts with a letter: a digit first character rules
it out. -/
theorem digit_not_monthTriple {a b c : Char} (h : isDigitC a = true) :
    isMonthTriple a b c = false := by
  by_contra hc
  rw [Bool.not_eq_false] at hc
  have hd := digit_toNat h
  have ha : (asciiLower a).toNat = a.toNat := by
    rw [asciiLower_toNat, if_neg (by omega)]
  have hge := monthTriple_head_ge (List.elem_iff.mp hc)
  omega

/-- A whitespace first character also rules out a month triple. -/
theorem ws_not_monthTriple {a b c : Char} (h : isWsC a = true) :
    isMonthTriple a b c = false := by
  by_contra hc
  rw [Bool.not_eq_false] at hc
  have hw := ws_toNat h
  have ha : (asciiLower a).toNat = a.toNat := by
    rw [asciiLower_toNat, if_neg (by omega)]
  have hge := monthTriple_head_ge (List.elem_iff.mp hc)
  omega

/-- Each written month abbreviation destructures into a matching
triple whose characters are letters, neither whitespace, digits nor
dashes. -/
theorem monthNames_destruct {m : String} (hm : m ∈ monthNames) :
    ∃ x y z, m.data = [x, y, z] ∧ isMonthTriple x y z = true ∧
      isWsC x = false ∧ isDigitC x = false ∧
      x ≠ '-' ∧ y ≠ '-' ∧ z ≠ '-' ∧ isWsC z = false := by
  fin_cases hm <;>
    exact ⟨_, _, _, rfl, by decide, by decide, by decide, by decide, by decide,
      by decide, by decide⟩

/-- A four-digit year string destructures into its digits. -/
theorem isYearStr_destruct {y : String} (hy : isYearStr y = true) :
    ∃ a b c d, y.data = [a, b, c, d] ∧ isDigitC a = true ∧ isDigitC b = true ∧
      isDigitC c = true ∧ isDigitC d = true := by
  simp only [isYearStr, Bool.and_eq_true, beq_iff_eq, List.all_eq_true] at hy
  obtain ⟨hlen, hall⟩ := hy
  match hdata : y.data with
  | [a, b, c, d] =>
    refine ⟨a, b, c, d, rfl, ?_, ?_, ?_, ?_⟩ <;>
      (apply hall; rw [hdata]; simp)
  | [] => rw [hdata] at hlen; simp at hlen
  | [a] => rw [hdata] at hlen; simp at hlen
  | [a, b] => rw [hdata] at hlen; simp at hlen
  | [a, b, c] => rw [hdata] at hlen; simp at hlen
  | a :: b :: c :: d :: e :: t => rw [hdata] at hlen; simp at hlen

/-- Whitespace skipping stops at a non-whitespace head. -/
theorem skipWs_stop {c : Char} {l : List Char} (h : isWsC c = false) :
    skipWs (c :: l) = c :: l := by
  simp [skipWs, List.dropWhile_cons, h]

/-- Whitespace skipping passes over an all-whitespace prefix. -/
theorem skipWs_pass {w : List Char} (l : List Char)
    (h : ∀ x ∈ w, isWsC x = true) : skipWs (w ++ l) = skipWs l :=
  dropWhile_append_all l h

/-- Four digits match and leave the rest. -/
theorem matchDigit4_digits {a b c d : Char} (rest : List Char)
    (ha : isDigitC a = true) (hb : isDigitC b = true) (hc : isDigitC c = true)
    (hd : isDigitC d = true) :
    matchDigit4 (a :: b :: c :: d :: rest) = some rest := by
  simp [matchDigit4, ha, hb, hc, hd]

/-- A digit head never begins a month match. -/
theorem matchMonth_digit {a : Char} {l : List Char} (h : isDigitC a = true) :
    matchMonth (a :: l) = none := by
  match l with
  | [] => rfl
  | [x] => rfl
  | x :: y :: t => simp [matchMonth, digit_not_monthTriple h]

/-- A month triple at the head matches and leaves the rest. -/
theorem matchMonth_triple {x y z : Char} (l : List Char)
    (h : isMonthTriple x y z = true) :
    matchMonth (x :: y :: z :: l) = some l := by
  simp [matchMonth, h]

/-- A whitespace head begins a successful mandatory-whitespace
match. -/
theorem matchWs1_cons {c : Char} (l : List Char) (h : isWsC c = true) :
    matchWs1 (c :: l) = some (skipWs l) := by
  simp [matchWs1, h]

/-- The month-year fragment matcher accepts a fragment followed by
anything, consuming exactly the fragment. -/
theorem matchMonthYear_sound {my : List Char} (rest : List Char)
    (h : IsMonthYearL my) : matchMonthYear (my ++ rest) = some rest := by
  rcases h with ⟨x, y, z, w, ds, hmy, htr, hwne, hwall, hlen, hdig⟩ |
    ⟨hlen, hdig⟩
  · subst hmy
    match ds, hlen with
    | [a, b, c, d], _ =>
      simp only [List.all_eq_true] at hdig hwall
      have ha : isDigitC a = true := hdig a (by simp)
      have hb : isDigitC b = true := hdig b (by simp)
      have hc : isDigitC c = true := hdig c (by simp)
      have hd : isDigitC d = true := hdig d (by simp)
      match w, hwne with
      | w0 :: w', _ =>
        have hw0 : isWsC w0 = true := hwall w0 (by simp)
        have hw' : ∀ u ∈ w', isWsC u = true := fun u hu => hwall u (by simp [hu])
        simp only [List.cons_append, List.nil_append, List.append_assoc]
        rw [matchMonthYear, matchMonth_triple _ htr]
        dsimp only
        rw [matchWs1_cons _ hw0]
        dsimp only
        rw [skipWs_pass _ hw', skipWs_stop (not_ws_of_digit ha)]
        exact matchDigit4_digits rest ha hb hc hd
  · match my, hlen with
    | [a, b, c, d], _ =>
      simp only [List.all_eq_true] at hdig
      have ha : isDigitC a = true := hdig a (by simp)
      have hb : isDigitC b = true := hdig b (by simp)
      have hc : isDigitC c = true := hdig c (by simp)
      have hd : isDigitC d = true := hdig d (by simp)
      simp only [List.cons_append, List.nil_append]
      rw [matchMonthYear, matchMonth_digit ha]
      exact matchDigit4_digits rest ha hb hc hd

/-- Whitespace is not a digit. -/
theorem ws_not_digit {c : Char} (h : isWsC c = true) : isDigitC c = false := by
  by_contra hc
  rw [Bool.not_eq_false] at hc
  have hd := digit_toNat hc
  have := ws_toNat h
  omega

/-- Skipping whitespace over an all-whitespace list yields nothing. -/
theorem skipWs_all {l : List Char} (h : ∀ x ∈ l, isWsC x = true) :
    skipWs l = [] :=
  List.dropWhile_eq_nil_iff.mpr h

/-- A month-year fragment is non-empty and starts with a
non-whitespace character. -/
theorem monthYear_head {my : List Char} (h : IsMonthYearL my) :
    ∃ c r, my = c :: r ∧ isWsC c = false := by
  rcases h with ⟨x, y, z, w, ds, hmy, htr, -, -, -, -⟩ | ⟨hlen, hdig⟩
  · refine ⟨x, _, hmy, ?_⟩
    by_contra hc
    rw [Bool.not_eq_false] at hc
    rw [ws_not_monthTriple hc] at htr
    cases htr
  · match my, hlen with
    | a :: r, _ =>
      have ha : isDigitC a = true := by
        simp only [List.all_eq_true] at hdig
        exact hdig a (by simp)
      exact ⟨a, r, rfl, not_ws_of_digit ha⟩

/-- The all-whitespace list never matches a month-year fragment. -/
theorem matchMonthYear_none_ws {l : List Char} (h : ∀ x ∈ l, isWsC x = true) :
    matchMonthYear l = none := by
  match l with
  | [] => rfl
  | [a] => rfl
  | [a, b] => rfl
  | [a, b, c] =>
    have ha : isWsC a = true := h a (by simp)
    simp [matchMonthYear, matchMonth, ws_not_monthTriple ha, matchDigit4]
  | a :: b :: c :: d :: t =>
    have ha : isWsC a = true := h a (by simp)
    simp [matchMonthYear, matchMonth, ws_not_monthTriple ha, matchDigit4,
      ws_not_digit ha]

/-- The all-whitespace list never matches the Present literal. -/
theorem matchPresent_none_ws {l : List Char} (h : ∀ x ∈ l, isWsC x = true) :
    matchPresent l = none := by
  match l with
  | [] => rfl
  | [_] => rfl
  | [_, _] => rfl
  | [_, _, _] => rfl
  | [_, _, _, _] => rfl
  | [_, _, _, _, _] => rfl
  | [_, _, _, _, _, _] => rfl
  | a :: r :: e :: s :: e2 :: n :: t :: rest =>
    have ha := ws_toNat (h a (by simp))
    have hla : (asciiLower a).toNat = a.toNat := by
      rw [asciiLower_toNat, if_neg (by omega)]
    rw [matchPresent, if_neg]
    intro hcon
    have h2 := congrArg (fun l => List.headD l ' ') hcon
    simp only [List.headD_cons] at h2
    rw [h2] at hla
    have hp : ('p').toNat = 112 := rfl
    omega

/-- A Present literal destructures into its seven characters. -/
theorem present_destruct {pl : List Char} (h : IsPresentL pl) :
    ∃ p0 p1 p2 p3 p4 p5 p6, pl = [p0, p1, p2, p3, p4, p5, p6] ∧
      asciiLower p0 = 'p' ∧ asciiLower p1 = 'r' ∧ asciiLower p2 = 'e' ∧
      asciiLower p3 = 's' ∧ asciiLower p4 = 'e' ∧ asciiLower p5 = 'n' ∧
      asciiLower p6 = 't' := by
  obtain ⟨p0, l1, hl, hf, hm⟩ := List.map_eq_cons_iff.mp h
  obtain ⟨p1, l2, hl2, hf2, hm2⟩ := List.map_eq_cons_iff.mp hm
  obtain ⟨p2, l3, hl3, hf3, hm3⟩ := List.map_eq_cons_iff.mp hm2
  obtain ⟨p3, l4, hl4, hf4, hm4⟩ := List.map_eq_cons_iff.mp hm3
  obtain ⟨p4, l5, hl5, hf5, hm5⟩ := List.map_eq_cons_iff.mp hm4
  obtain ⟨p5, l6, hl6, hf6, hm6⟩ := List.map_eq_cons_iff.mp hm5
  obtain ⟨p6, l7, hl7, hf7, hm7⟩ := List.map_eq_cons_iff.mp hm6
  have hl7nil : l7 = [] := by
    cases l7 with
    | nil => rfl
    | cons u us => simp at hm7
  refine ⟨p0, p1, p2, p3, p4, p5, p6, ?_, hf, hf2, hf3, hf4, hf5, hf6, hf7⟩
  rw [hl, hl2, hl3, hl4, hl5, hl6, hl7, hl7nil]

/-- The scalar value of a character lowering to the letter p is 80 or
112. -/
theorem toNat_of_lower_p {c : Char} (h : asciiLower c = 'p') :
    c.toNat = 80 ∨ c.toNat = 112 := by
  have h1 := asciiLower_toNat c
  rw [h] at h1
  have hp : ('p').toNat = 112 := rfl
  by_cases h2 : 65 ≤ c.toNat ∧ c.toNat ≤ 90
  · rw [if_pos h2] at h1
    omega
  · rw [if_neg h2] at h1
    omega

/-- No month triple starts with the letter p. -/
theorem monthTriple_head_ne_p {la lb lc : Char} (h : [la, lb, lc] ∈ monthTriples) :
    la.toNat ≠ 112 := by
  simp only [monthTriples, List.mem_cons, List.not_mem_nil, or_false,
    List.cons.injEq, and_true] at h
  rcases h with ⟨rfl, -⟩ | ⟨rfl, -⟩ | ⟨rfl, -⟩ | ⟨rfl, -⟩ | ⟨rfl, -⟩ | ⟨rfl, -⟩ |
    ⟨rfl, -⟩ | ⟨rfl, -⟩ | ⟨rfl, -⟩ | ⟨rfl, -⟩ | ⟨rfl, -⟩ | ⟨rfl, -⟩ <;> decide

/-- A Present-literal head never begins a month-year match. -/
theorem matchMonthYear_none_present {pl : List Char} (rest : List Char)
    (h : IsPresentL pl) : matchMonthYear (pl ++ rest) = none := by
  obtain ⟨p0, p1, p2, p3, p4, p5, p6, hpl, hf0, hf1, hf2, hf3, hf4, hf5, hf6⟩ :=
    present_destruct h
  subst hpl
  have hp0 := toNat_of_lower_p hf0
  have htr : isMonthTriple p0 p1 p2 = false := by
    by_contra hc
    rw [Bool.not_eq_false] at hc
    have hmem := List.elem_iff.mp hc
    have hne := monthTriple_head_ne_p hmem
    exact hne (by rw [hf0]; rfl)
  have hd0 : isDigitC p0 = false := by
    simp only [isDigitC, Bool.and_eq_true, decide_eq_true_eq]
    simp only [Bool.and_eq_false_iff, decide_eq_false_iff_not]
    omega
  simp [matchMonthYear, matchMonth, htr, matchDigit4, hd0]

/-- The Present matcher accepts a Present literal followed by
anything. -/
theorem matchPresent_sound {pl : List Char} (rest : List Char)
    (h : IsPresentL pl) : matchPresent (pl ++ rest) = some rest := by
  obtain ⟨p0, p1, p2, p3, p4, p5, p6, hpl, hf0, hf1, hf2, hf3, hf4, hf5, hf6⟩ :=
    present_destruct h
  subst hpl
  simp [matchPresent, hf0, hf1, hf2, hf3, hf4, hf5, hf6]

/-- A Present literal starts with a non-whitespace character. -/
theorem present_head {pl : List Char} (h : IsPresentL pl) :
    ∃ c r, pl = c :: r ∧ isWsC c = false := by
  obtain ⟨p0, p1, p2, p3, p4, p5, p6, hpl, hf0, -, -, -, -, -, -⟩ :=
    present_destruct h
  have hp0 := toNat_of_lower_p hf0
  refine ⟨p0, _, hpl, ?_⟩
  by_contra hc
  rw [Bool.not_eq_false] at hc
  have := ws_toNat hc
  omega

/-- Soundness of the date-range matcher: any string of the general
grammar shape matches. -/
theorem dateRangeMatch_sound {w0 my w1 w2 rhs w3 : List Char}
    (hw0 : ∀ x ∈ w0, isWsC x = true) (hmy : IsMonthYearL my)
    (hw1 : ∀ x ∈ w1, isWsC x = true) (hw2 : ∀ x ∈ w2, isWsC x = true)
    (hw3 : ∀ x ∈ w3, isWsC x = true)
    (hrhs : rhs = [] ∨ IsMonthYearL rhs ∨ IsPresentL rhs) :
    dateRangeMatch (w0 ++ my ++ w1 ++ '-' :: (w2 ++ rhs ++ w3)) = true := by
  obtain ⟨mc, mr, hmyeq, hmws⟩ := monthYear_head hmy
  rw [dateRangeMatch]
  rw [show w0 ++ my ++ w1 ++ '-' :: (w2 ++ rhs ++ w3) =
    w0 ++ (my ++ (w1 ++ '-' :: (w2 ++ rhs ++ w3))) by simp]
  rw [skipWs_pass _ hw0]
  have hmm := matchMonthYear_sound (w1 ++ '-' :: (w2 ++ rhs ++ w3)) hmy
  rw [hmyeq, List.cons_append] at hmm
  rw [hmyeq, List.cons_append, skipWs_stop hmws, hmm]
  dsimp only
  rw [skipWs_pass _ hw1, skipWs_stop (c := '-') (by decide)]
  dsimp only
  rw [if_pos rfl]
  rcases hrhs with hr | hr | hr
  · subst hr
    have hc5 : skipWs (w2 ++ [] ++ w3) = [] := by
      simp only [List.append_nil]
      exact skipWs_all (fun x hx => by
        rcases List.mem_append.mp hx with h | h
        · exact hw2 x h
        · exact hw3 x h)
    rw [hc5]
    rfl
  · obtain ⟨rc, rr, hre, hrws⟩ := monthYear_head hr
    have hc5 : skipWs (w2 ++ rhs ++ w3) = rhs ++ w3 := by
      rw [hre, List.append_assoc, skipWs_pass _ hw2, List.cons_append,
        skipWs_stop hrws, ← List.cons_append]
    rw [hc5, matchMonthYear_sound w3 hr]
    dsimp only
    rw [skipWs_all hw3]
    rfl
  · obtain ⟨rc, rr, hre, hrws⟩ := present_head hr
    have hc5 : skipWs (w2 ++ rhs ++ w3) = rhs ++ w3 := by
      rw [hre, List.append_assoc, skipWs_pass _ hw2, List.cons_append,
        skipWs_stop hrws, ← List.cons_append]
    rw [hc5, matchMonthYear_none_present w3 hr]
    dsimp only
    rw [matchPresent_sound w3 hr]
    dsimp only
    rw [skipWs_all hw3]
    rfl
/-- Whitespace skipping splits off an all-whitespace prefix. -/
theorem skipWs_decomp (l : List Char) :
    ∃ w, l = w ++ skipWs l ∧ ∀ x ∈ w, isWsC x = true := by
  refine ⟨l.takeWhile isWsC, ?_, ?_⟩
  · rw [skipWs]
    exact (List.takeWhile_append_dropWhile isWsC l).symm
  · intro x hx
    exact List.mem_takeWhile_imp hx

/-- An empty whitespace-skip result means the list was all
whitespace. -/
theorem skipWs_empty_all {l : List Char} (h : (skipWs l).isEmpty = true) :
    ∀ x ∈ l, isWsC x = true := by
  rw [skipWs, List.isEmpty_iff] at h
  exact List.dropWhile_eq_nil_iff.mp h

/-- Inversion of the month matcher: success exposes a month triple. -/
theorem matchMonth_inv {l r : List Char} (h : matchMonth l = some r) :
    ∃ x y z, l = x :: y :: z :: r ∧ isMonthTriple x y z = true := by
  match l with
  | [] => cases h
  | [_] => cases h
  | [_, _] => cases h
  | x :: y :: z :: t =>
    simp only [matchMonth] at h
    by_cases htr : isMonthTriple x y z = true
    · rw [if_pos htr] at h
      injection h with h
      exact ⟨x, y, z, by rw [h], htr⟩
    · rw [if_neg htr] at h
      cases h

/-- Inversion of the mandatory-whitespace matcher: success consumes a
non-empty all-whitespace prefix. -/
theorem matchWs1_inv {l r : List Char} (h : matchWs1 l = some r) :
    ∃ w, l = w ++ r ∧ w ≠ [] ∧ ∀ x ∈ w, isWsC x = true := by
  match l with
  | [] => cases h
  | c :: rest =>
    simp only [matchWs1] at h
    by_cases hc : isWsC c = true
    · rw [if_pos hc] at h
      injection h with h
      obtain ⟨w, hw, hall⟩ := skipWs_decomp rest
      refine ⟨c :: w, ?_, by simp, ?_⟩
      · rw [List.cons_append, hw, h]
      · intro x hx
        rcases List.mem_cons.mp hx with hx | hx
        · rw [hx]; exact hc
        · exact hall x hx
    · rw [if_neg hc] at h
      cases h

/-- Inversion of the four-digit matcher. -/
theorem matchDigit4_inv {l r : List Char} (h : matchDigit4 l = some r) :
    ∃ a b c d, l = a :: b :: c :: d :: r ∧ isDigitC a = true ∧
      isDigitC b = true ∧ isDigitC c = true ∧ isDigitC d = true := by
  match l with
  | [] => cases h
  | [_] => cases h
  | [_, _] => cases h
  | [_, _, _] => cases h
  | a :: b :: c :: d :: t =>
    simp only [matchDigit4] at h
    by_cases hcond : (isDigitC a && isDigitC b && isDigitC c && isDigitC d) = true
    · rw [if_pos hcond] at h
      injection h with h
      simp only [Bool.and_eq_true] at hcond
      exact ⟨a, b, c, d, by rw [h], hcond.1.1.1, hcond.1.1.2, hcond.1.2,
        hcond.2⟩
    · rw [if_neg hcond] at h
      cases h

/-- Inversion of the month-year fragment matcher: success consumes a
month-year fragment. -/
theorem matchMonthYear_inv {l r : List Char} (h : matchMonthYear l = some r) :
    ∃ my, l = my ++ r ∧ IsMonthYearL my := by
  rw [matchMonthYear] at h
  cases hm : matchMonth l with
  | some r1 =>
    rw [hm] at h
    dsimp only at h
    cases hw : matchWs1 r1 with
    | some r2 =>
      rw [hw] at h
      dsimp only at h
      obtain ⟨x, y, z, hl, htr⟩ := matchMonth_inv hm
      obtain ⟨w, hr1, hwne, hwall⟩ := matchWs1_inv hw
      obtain ⟨a, b, c, d, hr2, ha, hb, hc, hd⟩ := matchDigit4_inv h
      refine ⟨x :: y :: z :: (w ++ [a, b, c, d]), ?_, ?_⟩
      · rw [hl, hr1, hr2]
        simp
      · exact Or.inl ⟨x, y, z, w, [a, b, c, d], by simp, htr, hwne,
          List.all_eq_true.mpr hwall, rfl,
          by simp [List.all_cons, List.all_nil, ha, hb, hc, hd]⟩
    | none =>
      rw [hw] at h
      dsimp only at h
      cases h
  | none =>
    rw [hm] at h
    dsimp only at h
    obtain ⟨a, b, c, d, hl, ha, hb, hc, hd⟩ := matchDigit4_inv h
    refine ⟨[a, b, c, d], by rw [hl]; rfl, Or.inr ⟨rfl, ?_⟩⟩
    simp [List.all_cons, List.all_nil, ha, hb, hc, hd]

/-- Inversion of the Present matcher. -/
theorem matchPresent_inv {l r : List Char} (h : matchPresent l = some r) :
    ∃ pl, l = pl ++ r ∧ IsPresentL pl := by
  match l with
  | [] => cases h
  | [_] => cases h
  | [_, _] => cases h
  | [_, _, _] => cases h
  | [_, _, _, _] => cases h
  | [_, _, _, _, _] => cases h
  | [_, _, _, _, _, _] => cases h
  | p :: q :: e :: s :: e2 :: n :: t :: rest =>
    simp only [matchPresent] at h
    by_cases hc : [asciiLower p, asciiLower q, asciiLower e, asciiLower s,
        asciiLower e2, asciiLower n, asciiLower t] =
        ['p', 'r', 'e', 's', 'e', 'n', 't']
    · rw [if_pos hc] at h
      injection h with h
      refine ⟨[p, q, e, s, e2, n, t], by rw [h]; rfl, ?_⟩
      simp only [IsPresentL, List.map_cons, List.map_nil]
      exact hc
    · rw [if_neg hc] at h
      cases h
/-- Completeness of the date-range matcher: a matching string
decomposes into the general grammar shape. -/
theorem dateRangeMatch_complete {cs : List Char}
    (h : dateRangeMatch cs = true) :
    ∃ w0 my w1 w2 rhs w3,
      cs = w0 ++ my ++ w1 ++ '-' :: (w2 ++ rhs ++ w3) ∧
      (∀ x ∈ w0, isWsC x = true) ∧ IsMonthYearL my ∧
      (∀ x ∈ w1, isWsC x = true) ∧ (∀ x ∈ w2, isWsC x = true) ∧
      (∀ x ∈ w3, isWsC x = true) ∧
      (rhs = [] ∨ IsMonthYearL rhs ∨ IsPresentL rhs) := by
  rw [dateRangeMatch] at h
  cases hmy : matchMonthYear (skipWs cs) with
  | none =>
    rw [hmy] at h
    dsimp only at h
    cases h
  | some c2 =>
    rw [hmy] at h
    dsimp only at h
    cases hsk : skipWs c2 with
    | nil =>
      rw [hsk] at h
      dsimp only at h
      cases h
    | cons c c4 =>
      rw [hsk] at h
      dsimp only at h
      by_cases hd : c = '-'
      · rw [if_pos hd] at h
        subst hd
        obtain ⟨w0, hcs, hw0⟩ := skipWs_decomp cs
        obtain ⟨my, hsplit, hmyL⟩ := matchMonthYear_inv hmy
        obtain ⟨w1, hc2, hw1⟩ := skipWs_decomp c2
        rw [hsk] at hc2
        obtain ⟨w2, hc4, hw2⟩ := skipWs_decomp c4
        have h' : (skipWs (match matchMonthYear (skipWs c4) with
            | some r => r
            | none =>
              match matchPresent (skipWs c4) with
              | some r => r
              | none => skipWs c4)).isEmpty = true := h
        cases hmm2 : matchMonthYear (skipWs c4) with
        | some r =>
          rw [hmm2] at h'
          dsimp only at h'
          obtain ⟨rhs, hc5s, hrhsL⟩ := matchMonthYear_inv hmm2
          have hw3 := skipWs_empty_all h'
          refine ⟨w0, my, w1, w2, rhs, r, ?_, hw0, hmyL, hw1, hw2, hw3,
            Or.inr (Or.inl hrhsL)⟩
          rw [hcs, hsplit, hc2, hc4, hc5s]
          simp [List.append_assoc]
        | none =>
          rw [hmm2] at h'
          dsimp only at h'
          cases hp2 : matchPresent (skipWs c4) with
          | some r =>
            rw [hp2] at h'
            dsimp only at h'
            obtain ⟨rhs, hc5s, hrhsL⟩ := matchPresent_inv hp2
            have hw3 := skipWs_empty_all h'
            refine ⟨w0, my, w1, w2, rhs, r, ?_, hw0, hmyL, hw1, hw2, hw3,
              Or.inr (Or.inr hrhsL)⟩
            rw [hcs, hsplit, hc2, hc4, hc5s]
            simp [List.append_assoc]
          | none =>
            rw [hp2] at h'
            dsimp only at h'
            have hall : ∀ x ∈ skipWs c4, isWsC x = true := skipWs_empty_all h'
            refine ⟨w0, my, w1, w2, [], skipWs c4, ?_, hw0, hmyL, hw1, hw2,
              hall, Or.inl rfl⟩
            rw [hcs, hsplit, hc2]
            conv_lhs => rw [hc4]
            simp [List.append_assoc]
      · rw [if_neg hd] at h
        cases h
/-- String append concatenates the underlying character lists. -/
theorem data_append (s t : String) : (s ++ t).data = s.data ++ t.data := rfl

/-- Two strings with the same character list are equal. -/
theorem string_eq_of_data {s : String} {l : List Char} (h : s.data = l) :
    s = ⟨l⟩ := by
  cases s
  cases h
  rfl

/-- A digit is not a dash. -/
theorem digit_ne_dash {c : Char} (h : isDigitC c = true) : c ≠ '-' := by
  intro hc
  subst hc
  exact absurd h (by decide)

/-- Splitting at the first dash of a list with a dash-free prefix. -/
theorem breakAtDash_split {l1 : List Char} (l2 : List Char)
    (h : ∀ x ∈ l1, x ≠ '-') :
    breakAtDash (l1 ++ '-' :: l2) = (l1, some l2) := by
  induction l1 with
  | nil => simp [breakAtDash]
  | cons c t ih =>
    have hc : c ≠ '-' := h c (by simp)
    rw [List.cons_append, breakAtDash]
    rw [if_neg hc, ih (fun x hx => h x (List.mem_cons_of_mem c hx))]

/-- Stripping removes exactly the whitespace sleeves around a core with
non-whitespace endpoints. -/
theorem stripL_sandwich (w1 w2 : List Char) {c d : Char} {r : List Char}
    (hw1 : ∀ x ∈ w1, isWsC x = true) (hw2 : ∀ x ∈ w2, isWsC x = true)
    (hc : isWsC c = false) (hd : isWsC d = false)
    (hlast : (c :: r).getLast? = some d) :
    stripL (w1 ++ (c :: r) ++ w2) = c :: r := by
  have h1 : (c :: r).reverse.head? = some d := by
    rw [List.head?_reverse]
    exact hlast
  obtain ⟨t, ht⟩ : ∃ t, (c :: r).reverse = d :: t := by
    cases hrv : (c :: r).reverse with
    | nil => rw [hrv] at h1; cases h1
    | cons a t =>
      rw [hrv] at h1
      injection h1 with h1
      exact ⟨t, by rw [h1]⟩
  rw [stripL, List.append_assoc, dropWhile_append_all _ hw1]
  have h2 : List.dropWhile isWsC ((c :: r) ++ w2) = (c :: r) ++ w2 := by
    simp [List.dropWhile_cons, hc]
  rw [h2, List.reverse_append,
    dropWhile_append_all _ (fun x hx => hw2 x (List.mem_reverse.mp hx)), ht]
  have h3 : List.dropWhile isWsC (d :: t) = d :: t := by
    simp [List.dropWhile_cons, hd]
  rw [h3, ← ht, List.reverse_reverse]

/-- A month followed by one space and a year is a month-year
fragment. -/
theorem monthYear_of_parts {m y : String} (hm : m ∈ monthNames)
    (hy : isYearStr y = true) : IsMonthYearL (m.data ++ ' ' :: y.data) := by
  obtain ⟨x, y0, z, hmd, htr, -, -, -, -, -, -⟩ := monthNames_destruct hm
  obtain ⟨a, b, c, d, hyd, ha, hb, hc, hd⟩ := isYearStr_destruct hy
  rw [hmd, hyd]
  exact Or.inl ⟨x, y0, z, [' '], [a, b, c, d], by simp, htr, by simp,
    by decide, rfl, by simp [List.all_cons, List.all_nil, ha, hb, hc, hd]⟩

/-- A bare year is a month-year fragment. -/
theorem monthYear_of_year {y : String} (hy : isYearStr y = true) :
    IsMonthYearL y.data := by
  simp only [isYearStr, Bool.and_eq_true, beq_iff_eq] at hy
  exact Or.inr ⟨hy.1, hy.2⟩

/-- The from-date validator accepts every month-year fragment. -/
theorem matchesFromDate_of_monthYear {my : List Char} (h : IsMonthYearL my) :
    matchesFromDate my = true := by
  rw [matchesFromDate]
  have hs := matchMonthYear_sound [] h
  rw [List.append_nil] at hs
  rw [hs]
  rfl

/-- The to-date validator accepts every month-year fragment. -/
theorem matchesToDate_of_monthYear {my : List Char} (h : IsMonthYearL my) :
    matchesToDate my = true := by
  rw [matchesToDate, matchesFromDate_of_monthYear h]
  rfl

/-- A month name has three characters. -/
theorem month_length {m : String} (hm : m ∈ monthNames) : m.length = 3 := by
  fin_cases hm <;> rfl

/-- A year string has four characters. -/
theorem year_length {y : String} (hy : isYearStr y = true) : y.length = 4 := by
  obtain ⟨a, b, c, d, hyd, -, -, -, -⟩ := isYearStr_destruct hy
  show y.data.length = 4
  rw [hyd]
  rfl

/-- The date-range recognizer reduces to the anchored matcher when the
emptiness and dash preconditions hold. -/
theorem is_date_range_eq {text : String}
    (h0 : ((text == "") || !(pyInC '-' text)) = false) :
    is_date_range text = dateRangeMatch (stripL text.data) := by
  rw [is_date_range, if_neg (by simp [h0])]

/-- A successful recognition implies the preconditions and the anchored
match. -/
theorem is_date_range_true_elim {text : String}
    (h : is_date_range text = true) :
    text ≠ "" ∧ pyInC '-' text = true ∧
      dateRangeMatch (stripL text.data) = true := by
  rw [is_date_range] at h
  by_cases h0 : ((text == "") || !(pyInC '-' text)) = true
  · rw [if_pos h0] at h
    cases h
  · rw [if_neg h0] at h
    have h1 : (text == "") = false := by
      cases hg : (text == "") with
      | false => rfl
      | true => rw [Bool.or_eq_true] at h0; exact absurd (Or.inl hg) h0
    have h2 : pyInC '-' text = true := by
      cases hp : pyInC '-' text with
      | true => rfl
      | false =>
        rw [Bool.or_eq_true] at h0
        exact absurd (Or.inr (by rw [hp]; rfl)) h0
    exact ⟨beq_eq_false_iff_ne.mp h1, h2, h⟩

/-- The smart parser on a dash split with a dash-free left part. -/
theorem parse_split {text : String} {l1 l2 : List Char}
    (h0 : ((text == "") || !(pyInC '-' text)) = false)
    (hdata : text.data = l1 ++ '-' :: l2)
    (hno : ∀ x ∈ l1, x ≠ '-') :
    parse_date_range_smart text =
      (if !matchesFromDate (stripL l1) then ("", "")
       else if !(stripL l2).isEmpty && !matchesToDate (stripL l2) then
         ("", "")
       else (⟨stripL l1⟩, ⟨stripL l2⟩)) := by
  rw [parse_date_range_smart, if_neg (by simp [h0]), hdata,
    breakAtDash_split l2 hno]
/-- The shape Mon YYYY - Mon YYYY is recognized and parsed into its two
sides. -/
theorem shape_mon_full {m1 y1 m2 y2 : String} (hm1 : m1 ∈ monthNames)
    (hy1 : isYearStr y1 = true) (hm2 : m2 ∈ monthNames)
    (hy2 : isYearStr y2 = true) :
    (m1 ++ " " ++ y1) ≠ "" ∧
    is_date_range (m1 ++ " " ++ y1 ++ " - " ++ m2 ++ " " ++ y2) = true ∧
    parse_date_range_smart (m1 ++ " " ++ y1 ++ " - " ++ m2 ++ " " ++ y2) =
      (m1 ++ " " ++ y1, m2 ++ " " ++ y2) := by
  obtain ⟨x1, x2, x3, hm1d, htr1, hwsx, hdgx, hx1, hx2, hx3, hwsz⟩ :=
    monthNames_destruct hm1
  obtain ⟨u1, u2, u3, hm2d, htr2, hwsu, hdgu, hu1, hu2, hu3, hwsu3⟩ :=
    monthNames_destruct hm2
  obtain ⟨a1, a2, a3, a4, hy1d, ha1, ha2, ha3, ha4⟩ := isYearStr_destruct hy1
  obtain ⟨b1, b2, b3, b4, hy2d, hb1, hb2, hb3, hb4⟩ := isYearStr_destruct hy2
  have hmyL := monthYear_of_parts hm1 hy1
  have hrhsL := monthYear_of_parts hm2 hy2
  have hdata : (m1 ++ " " ++ y1 ++ " - " ++ m2 ++ " " ++ y2).data =
      ((m1.data ++ ' ' :: y1.data) ++ [' ']) ++
        '-' :: (' ' :: (m2.data ++ ' ' :: y2.data)) := by
    simp [data_append, show (" " : String).data = [' '] from rfl,
      show (" - " : String).data = [' ', '-', ' '] from rfl]
  have hfrom_ne : (m1 ++ " " ++ y1) ≠ "" := by
    intro he
    have hdd := congrArg String.data he
    rw [data_append, data_append, hm1d] at hdd
    simp [show ("" : String).data = ([] : List Char) from rfl] at hdd
  have htext_ne : (m1 ++ " " ++ y1 ++ " - " ++ m2 ++ " " ++ y2) ≠ "" := by
    intro he
    have hdd := congrArg String.data he
    rw [hdata] at hdd
    simp [show ("" : String).data = ([] : List Char) from rfl] at hdd
  have hdash : pyInC '-' (m1 ++ " " ++ y1 ++ " - " ++ m2 ++ " " ++ y2) =
      true := by
    apply List.elem_iff.mpr
    rw [hdata]
    simp
  have h0 : ((m1 ++ " " ++ y1 ++ " - " ++ m2 ++ " " ++ y2 == "") ||
      !(pyInC '-' (m1 ++ " " ++ y1 ++ " - " ++ m2 ++ " " ++ y2))) = false := by
    rw [hdash, beq_eq_false_iff_ne.mpr htext_ne]
    rfl
  have hstrip0 : stripL (((m1.data ++ ' ' :: y1.data) ++ [' ']) ++
      '-' :: (' ' :: (m2.data ++ ' ' :: y2.data))) =
      ((m1.data ++ ' ' :: y1.data) ++ [' ']) ++
        '-' :: (' ' :: (m2.data ++ ' ' :: y2.data)) := by
    rw [hm1d, hy1d, hm2d, hy2d]
    have h := stripL_sandwich [] [] (c := x1) (d := b4)
      (r := [x2, x3, ' ', a1, a2, a3, a4, ' ', '-', ' ', u1, u2, u3, ' ',
        b1, b2, b3, b4]) (by simp) (by simp) hwsx (not_ws_of_digit hb4)
      (by simp)
    simpa using h
  have hstrip1 : stripL ((m1.data ++ ' ' :: y1.data) ++ [' ']) =
      m1.data ++ ' ' :: y1.data := by
    rw [hm1d, hy1d]
    have h := stripL_sandwich [] [' '] (c := x1) (d := a4)
      (r := [x2, x3, ' ', a1, a2, a3, a4]) (by simp) (by decide) hwsx
      (not_ws_of_digit ha4) (by simp)
    simpa using h
  have hstrip2 : stripL (' ' :: (m2.data ++ ' ' :: y2.data)) =
      m2.data ++ ' ' :: y2.data := by
    rw [hm2d, hy2d]
    have h := stripL_sandwich [' '] [] (c := u1) (d := b4)
      (r := [u2, u3, ' ', b1, b2, b3, b4]) (by decide) (by simp) hwsu
      (not_ws_of_digit hb4) (by simp)
    simpa using h
  have hno : ∀ x ∈ (m1.data ++ ' ' :: y1.data) ++ [' '], x ≠ '-' := by
    rw [hm1d, hy1d]
    intro v hv
    simp at hv
    rcases hv with rfl | rfl | rfl | rfl | rfl | rfl | rfl | rfl | rfl
    · exact hx1
    · exact hx2
    · exact hx3
    · decide
    · exact digit_ne_dash ha1
    · exact digit_ne_dash ha2
    · exact digit_ne_dash ha3
    · exact digit_ne_dash ha4
    · decide
  refine ⟨hfrom_ne, ?_, ?_⟩
  · rw [is_date_range_eq h0, hdata, hstrip0]
    have h := @dateRangeMatch_sound [] (m1.data ++ ' ' :: y1.data) [' ']
      [' '] (m2.data ++ ' ' :: y2.data) [] (by simp) hmyL (by decide)
      (by decide) (by simp) (Or.inr (Or.inl hrhsL))
    simpa using h
  · rw [parse_split h0 hdata hno, hstrip1, matchesFromDate_of_monthYear hmyL,
      hstrip2, matchesToDate_of_monthYear hrhsL]
    simp only [Bool.not_true, Bool.and_false, Bool.false_eq_true, if_false,
      Prod.mk.injEq]
    constructor
    · exact (string_eq_of_data (by
        simp [data_append, show (" " : String).data = [' '] from rfl])).symm
    · exact (string_eq_of_data (by
        simp [data_append, show (" " : String).data = [' '] from rfl])).symm

/-- The shape YYYY - YYYY is recognized and parsed into its two
sides. -/
theorem shape_years {y1 y2 : String} (hy1 : isYearStr y1 = true)
    (hy2 : isYearStr y2 = true) :
    y1 ≠ "" ∧
    is_date_range (y1 ++ " - " ++ y2) = true ∧
    parse_date_range_smart (y1 ++ " - " ++ y2) = (y1, y2) := by
  obtain ⟨a1, a2, a3, a4, hy1d, ha1, ha2, ha3, ha4⟩ := isYearStr_destruct hy1
  obtain ⟨b1, b2, b3, b4, hy2d, hb1, hb2, hb3, hb4⟩ := isYearStr_destruct hy2
  have hmyL := monthYear_of_year hy1
  have hrhsL := monthYear_of_year hy2
  have hdata : (y1 ++ " - " ++ y2).data =
      (y1.data ++ [' ']) ++ '-' :: (' ' :: y2.data) := by
    simp [data_append, show (" - " : String).data = [' ', '-', ' '] from rfl]
  have hfrom_ne : y1 ≠ "" := by
    intro he
    have hdd := congrArg String.data he
    rw [hy1d] at hdd
    simp [show ("" : String).data = ([] : List Char) from rfl] at hdd
  have htext_ne : (y1 ++ " - " ++ y2) ≠ "" := by
    intro he
    have hdd := congrArg String.data he
    rw [hdata] at hdd
    simp [show ("" : String).data = ([] : List Char) from rfl] at hdd
  have hdash : pyInC '-' (y1 ++ " - " ++ y2) = true := by
    apply List.elem_iff.mpr
    rw [hdata]
    simp
  have h0 : ((y1 ++ " - " ++ y2 == "") ||
      !(pyInC '-' (y1 ++ " - " ++ y2))) = false := by
    rw [hdash, beq_eq_false_iff_ne.mpr htext_ne]
    rfl
  have hstrip0 : stripL ((y1.data ++ [' ']) ++ '-' :: (' ' :: y2.data)) =
      (y1.data ++ [' ']) ++ '-' :: (' ' :: y2.data) := by
    rw [hy1d, hy2d]
    have h := stripL_sandwich [] [] (c := a1) (d := b4)
      (r := [a2, a3, a4, ' ', '-', ' ', b1, b2, b3, b4]) (by simp) (by simp)
      (not_ws_of_digit ha1) (not_ws_of_digit hb4) (by simp)
    simpa using h
  have hstrip1 : stripL (y1.data ++ [' ']) = y1.data := by
    rw [hy1d]
    have h := stripL_sandwich [] [' '] (c := a1) (d := a4)
      (r := [a2, a3, a4]) (by simp) (by decide) (not_ws_of_digit ha1)
      (not_ws_of_digit ha4) (by simp)
    simpa using h
  have hstrip2 : stripL (' ' :: y2.data) = y2.data := by
    rw [hy2d]
    have h := stripL_sandwich [' '] [] (c := b1) (d := b4)
      (r := [b2, b3, b4]) (by decide) (by simp) (not_ws_of_digit hb1)
      (not_ws_of_digit hb4) (by simp)
    simpa using h
  have hno : ∀ x ∈ y1.data ++ [' '], x ≠ '-' := by
    rw [hy1d]
    intro v hv
    simp at hv
    rcases hv with rfl | rfl | rfl | rfl | rfl
    · exact digit_ne_dash ha1
    · exact digit_ne_dash ha2
    · exact digit_ne_dash ha3
    · exact digit_ne_dash ha4
    · decide
  refine ⟨hfrom_ne, ?_, ?_⟩
  · rw [is_date_range_eq h0, hdata, hstrip0]
    have h := @dateRangeMatch_sound [] y1.data [' '] [' '] y2.data []
      (by simp) hmyL (by decide) (by decide) (by simp)
      (Or.inr (Or.inl hrhsL))
    simpa using h
  · rw [parse_split h0 hdata hno, hstrip1, matchesFromDate_of_monthYear hmyL,
      hstrip2, matchesToDate_of_monthYear hrhsL]
    simp only [Bool.not_true, Bool.and_false, Bool.false_eq_true, if_false,
      Prod.mk.injEq]
/-- The shape Mon YYYY - Present is recognized and parsed with the
Present marker kept. -/
theorem shape_mon_present {m1 y1 : String} (hm1 : m1 ∈ monthNames)
    (hy1 : isYearStr y1 = true) :
    (m1 ++ " " ++ y1) ≠ "" ∧
    is_date_range (m1 ++ " " ++ y1 ++ " - Present") = true ∧
    parse_date_range_smart (m1 ++ " " ++ y1 ++ " - Present") =
      (m1 ++ " " ++ y1, "Present") := by
  obtain ⟨x1, x2, x3, hm1d, htr1, hwsx, hdgx, hx1, hx2, hx3, hwsz⟩ :=
    monthNames_destruct hm1
  obtain ⟨a1, a2, a3, a4, hy1d, ha1, ha2, ha3, ha4⟩ := isYearStr_destruct hy1
  have hmyL := monthYear_of_parts hm1 hy1
  have hpres : IsPresentL ['P', 'r', 'e', 's', 'e', 'n', 't'] := by
    show List.map asciiLower ['P', 'r', 'e', 's', 'e', 'n', 't'] =
      ['p', 'r', 'e', 's', 'e', 'n', 't']
    decide
  have hdata : (m1 ++ " " ++ y1 ++ " - Present").data =
      ((m1.data ++ ' ' :: y1.data) ++ [' ']) ++
        '-' :: (' ' :: ['P', 'r', 'e', 's', 'e', 'n', 't']) := by
    simp [data_append, show (" " : String).data = [' '] from rfl,
      show (" - Present" : String).data =
        [' ', '-', ' ', 'P', 'r', 'e', 's', 'e', 'n', 't'] from rfl]
  have hfrom_ne : (m1 ++ " " ++ y1) ≠ "" := by
    intro he
    have hdd := congrArg String.data he
    rw [data_append, data_append, hm1d] at hdd
    simp [show ("" : String).data = ([] : List Char) from rfl] at hdd
  have htext_ne : (m1 ++ " " ++ y1 ++ " - Present") ≠ "" := by
    intro he
    have hdd := congrArg String.data he
    rw [hdata] at hdd
    simp [show ("" : String).data = ([] : List Char) from rfl] at hdd
  have hdash : pyInC '-' (m1 ++ " " ++ y1 ++ " - Present") = true := by
    apply List.elem_iff.mpr
    rw [hdata]
    simp
  have h0 : ((m1 ++ " " ++ y1 ++ " - Present" == "") ||
      !(pyInC '-' (m1 ++ " " ++ y1 ++ " - Present"))) = false := by
    rw [hdash, beq_eq_false_iff_ne.mpr htext_ne]
    rfl
  have hstrip0 : stripL (((m1.data ++ ' ' :: y1.data) ++ [' ']) ++
      '-' :: (' ' :: ['P', 'r', 'e', 's', 'e', 'n', 't'])) =
      ((m1.data ++ ' ' :: y1.data) ++ [' ']) ++
        '-' :: (' ' :: ['P', 'r', 'e', 's', 'e', 'n', 't']) := by
    rw [hm1d, hy1d]
    have h := stripL_sandwich [] [] (c := x1) (d := 't')
      (r := [x2, x3, ' ', a1, a2, a3, a4, ' ', '-', ' ', 'P', 'r', 'e', 's',
        'e', 'n', 't']) (by simp) (by simp) hwsx (by decide) (by simp)
    simpa using h
  have hstrip1 : stripL ((m1.data ++ ' ' :: y1.data) ++ [' ']) =
      m1.data ++ ' ' :: y1.data := by
    rw [hm1d, hy1d]
    have h := stripL_sandwich [] [' '] (c := x1) (d := a4)
      (r := [x2, x3, ' ', a1, a2, a3, a4]) (by simp) (by decide) hwsx
      (not_ws_of_digit ha4) (by simp)
    simpa using h
  have hstrip2 : stripL (' ' :: ['P', 'r', 'e', 's', 'e', 'n', 't']) =
      ['P', 'r', 'e', 's', 'e', 'n', 't'] := by decide
  have hmatchto : matchesToDate ['P', 'r', 'e', 's', 'e', 'n', 't'] =
      true := by decide
  have hno : ∀ x ∈ (m1.data ++ ' ' :: y1.data) ++ [' '], x ≠ '-' := by
    rw [hm1d, hy1d]
    intro v hv
    simp at hv
    rcases hv with rfl | rfl | rfl | rfl | rfl | rfl | rfl | rfl | rfl
    · exact hx1
    · exact hx2
    · exact hx3
    · decide
    · exact digit_ne_dash ha1
    · exact digit_ne_dash ha2
    · exact digit_ne_dash ha3
    · exact digit_ne_dash ha4
    · decide
  refine ⟨hfrom_ne, ?_, ?_⟩
  · rw [is_date_range_eq h0, hdata, hstrip0]
    have h := @dateRangeMatch_sound [] (m1.data ++ ' ' :: y1.data) [' ']
      [' '] ['P', 'r', 'e', 's', 'e', 'n', 't'] [] (by simp) hmyL
      (by decide) (by decide) (by simp) (Or.inr (Or.inr hpres))
    simpa using h
  · rw [parse_split h0 hdata hno, hstrip1, matchesFromDate_of_monthYear hmyL,
      hstrip2, hmatchto]
    simp only [Bool.not_true, Bool.and_false, Bool.false_eq_true, if_false,
      Prod.mk.injEq]
    constructor
    · exact (string_eq_of_data (by
        simp [data_append, show (" " : String).data = [' '] from rfl])).symm
    · decide

/-- The ongoing shape YYYY - is recognized and parsed with an empty to
side. -/
theorem shape_ongoing {y1 : String} (hy1 : isYearStr y1 = true) :
    y1 ≠ "" ∧
    is_date_range (y1 ++ " -") = true ∧
    parse_date_range_smart (y1 ++ " -") = (y1, "") := by
  obtain ⟨a1, a2, a3, a4, hy1d, ha1, ha2, ha3, ha4⟩ := isYearStr_destruct hy1
  have hmyL := monthYear_of_year hy1
  have hdata : (y1 ++ " -").data = (y1.data ++ [' ']) ++ '-' :: [] := by
    simp [data_append, show (" -" : String).data = [' ', '-'] from rfl]
  have hfrom_ne : y1 ≠ "" := by
    intro he
    have hdd := congrArg String.data he
    rw [hy1d] at hdd
    simp [show ("" : String).data = ([] : List Char) from rfl] at hdd
  have htext_ne : (y1 ++ " -") ≠ "" := by
    intro he
    have hdd := congrArg String.data he
    rw [hdata] at hdd
    simp [show ("" : String).data = ([] : List Char) from rfl] at hdd
  have hdash : pyInC '-' (y1 ++ " -") = true := by
    apply List.elem_iff.mpr
    rw [hdata]
    simp
  have h0 : ((y1 ++ " -" == "") || !(pyInC '-' (y1 ++ " -"))) = false := by
    rw [hdash, beq_eq_false_iff_ne.mpr htext_ne]
    rfl
  have hstrip0 : stripL ((y1.data ++ [' ']) ++ '-' :: []) =
      (y1.data ++ [' ']) ++ '-' :: [] := by
    rw [hy1d]
    have h := stripL_sandwich [] [] (c := a1) (d := '-')
      (r := [a2, a3, a4, ' ', '-']) (by simp) (by simp)
      (not_ws_of_digit ha1) (by decide) (by simp)
    simpa using h
  have hstrip1 : stripL (y1.data ++ [' ']) = y1.data := by
    rw [hy1d]
    have h := stripL_sandwich [] [' '] (c := a1) (d := a4)
      (r := [a2, a3, a4]) (by simp) (by decide) (not_ws_of_digit ha1)
      (not_ws_of_digit ha4) (by simp)
    simpa using h
  have hno : ∀ x ∈ y1.data ++ [' '], x ≠ '-' := by
    rw [hy1d]
    intro v hv
    simp at hv
    rcases hv with rfl | rfl | rfl | rfl | rfl
    · exact digit_ne_dash ha1
    · exact digit_ne_dash ha2
    · exact digit_ne_dash ha3
    · exact digit_ne_dash ha4
    · decide
  refine ⟨hfrom_ne, ?_, ?_⟩
  · rw [is_date_range_eq h0, hdata, hstrip0]
    have h := @dateRangeMatch_sound [] y1.data [' '] [] [] []
      (by simp) hmyL (by decide) (by simp) (by simp) (Or.inl rfl)
    simpa using h
  · rw [parse_split h0 hdata hno, hstrip1, matchesFromDate_of_monthYear hmyL]
    simp [show stripL ([] : List Char) = [] from rfl]
/-- Exact characterization of the date-range recognizer by the general
grammar shape. -/
theorem is_date_range_iff_general (text : String) :
    is_date_range text = true ↔ GeneralDateShape text := by
  constructor
  · intro h
    obtain ⟨hne, hdash, hm⟩ := is_date_range_true_elim h
    obtain ⟨w0, my, w1, w2, rhs, w3, heq, hw0, hmy, hw1, hw2, hw3, hrhs⟩ :=
      dateRangeMatch_complete hm
    exact ⟨hne, List.elem_iff.mp hdash, w0, my, w1, w2, rhs, w3, heq,
      List.all_eq_true.mpr hw0, hmy, List.all_eq_true.mpr hw1,
      List.all_eq_true.mpr hw2, List.all_eq_true.mpr hw3, hrhs⟩
  · rintro ⟨hne, hdash, w0, my, w1, w2, rhs, w3, heq, hw0, hmy, hw1, hw2,
      hw3, hrhs⟩
    have hpy : pyInC '-' text = true := List.elem_iff.mpr hdash
    have h0 : ((text == "") || !(pyInC '-' text)) = false := by
      rw [hpy, beq_eq_false_iff_ne.mpr hne]
      rfl
    rw [is_date_range_eq h0, heq]
    exact dateRangeMatch_sound (List.all_eq_true.mp hw0) hmy
      (List.all_eq_true.mp hw1) (List.all_eq_true.mp hw2)
      (List.all_eq_true.mp hw3) hrhs

/-- A left side failing the from-date validation forces the empty
parse result. -/
theorem parse_fail_left {text : String}
    (h : matchesFromDate (stripL (breakAtDash text.data).1) = false) :
    parse_date_range_smart text = ("", "") := by
  rw [parse_date_range_smart]
  by_cases h0 : ((text == "") || !(pyInC '-' text)) = true
  · rw [if_pos h0]
  · rw [if_neg h0]
    simp [h]

/-- A non-empty right side failing the to-date validation forces the
empty parse result. -/
theorem parse_fail_right {text : String} {rr : List Char}
    (hr : (breakAtDash text.data).2 = some rr)
    (hne : (stripL rr).isEmpty = false)
    (hT : matchesToDate (stripL rr) = false) :
    parse_date_range_smart text = ("", "") := by
  rw [parse_date_range_smart]
  by_cases h0 : ((text == "") || !(pyInC '-' text)) = true
  · rw [if_pos h0]
  · rw [if_neg h0]
    by_cases hF : matchesFromDate (stripL (breakAtDash text.data).1) = true
    · simp [hF, hr, hne, hT]
    · rw [Bool.not_eq_true] at hF
      simp [hF]

/-- A string whose length differs from all four listed shape lengths
fits none of the listed shapes. -/
theorem not_listed_of_length {s : String}
    (h : s.length ≠ 19 ∧ s.length ≠ 11 ∧ s.length ≠ 18 ∧ s.length ≠ 6) :
    ¬ ListedDateShape s := by
  rintro (⟨m1, y1, m2, y2, hm1, hy1, hm2, hy2, rfl⟩ |
    ⟨y1, y2, hy1, hy2, rfl⟩ | ⟨m1, y1, hm1, hy1, rfl⟩ | ⟨y1, hy1, rfl⟩)
  · apply h.1
    simp [String.length_append, month_length hm1, month_length hm2,
      year_length hy1, year_length hy2,
      show (" " : String).length = 1 from rfl,
      show (" - " : String).length = 3 from rfl]
  · apply h.2.1
    simp [String.length_append, year_length hy1, year_length hy2,
      show (" - " : String).length = 3 from rfl]
  · apply h.2.2.1
    simp [String.length_append, month_length hm1, year_length hy1,
      show (" " : String).length = 1 from rfl,
      show (" - Present" : String).length = 10 from rfl]
  · apply h.2.2.2
    simp [String.length_append, year_length hy1,
      show (" -" : String).length = 2 from rfl]

/-- The recognizer and parser accept the mixed range Jan 2020 - 2021,
which fits none of the four shapes listed by the claim. -/
theorem c3_counterexample_mixed_range :
    is_date_range "Jan 2020 - 2021" = true ∧
    parse_date_range_smart "Jan 2020 - 2021" = ("Jan 2020", "2021") ∧
    ¬ ListedDateShape "Jan 2020 - 2021" := by
  refine ⟨by decide, by decide, not_listed_of_length ?_⟩
  refine ⟨?_, ?_, ?_, ?_⟩ <;> decide
/-- C3: every input of the four listed shapes Mon YYYY - Mon YYYY,
YYYY - YYYY, Mon YYYY - Present and YYYY - is accepted by the
recognizer and parsed into a non-empty from side with the documented
to side (Present kept, empty string for the ongoing form); the
recognizer accepts exactly the strings of the general date-range
grammar shape, which is strictly wider than the four listed shapes
(e.g. the mixed range Jan 2020 - 2021); and the parser returns the
empty pair whenever the stripped left side fails the from-date
validation or a non-empty stripped right side fails the to-date
validation. -/
theorem c3_date_range_recognizer_behavior :
    (∀ m1 y1 m2 y2 : String, m1 ∈ monthNames → isYearStr y1 = true →
      m2 ∈ monthNames → isYearStr y2 = true →
      (m1 ++ " " ++ y1) ≠ "" ∧
      is_date_range (m1 ++ " " ++ y1 ++ " - " ++ m2 ++ " " ++ y2) = true ∧
      parse_date_range_smart (m1 ++ " " ++ y1 ++ " - " ++ m2 ++ " " ++ y2) =
        (m1 ++ " " ++ y1, m2 ++ " " ++ y2)) ∧
    (∀ y1 y2 : String, isYearStr y1 = true → isYearStr y2 = true →
      y1 ≠ "" ∧ is_date_range (y1 ++ " - " ++ y2) = true ∧
      parse_date_range_smart (y1 ++ " - " ++ y2) = (y1, y2)) ∧
    (∀ m1 y1 : String, m1 ∈ monthNames → isYearStr y1 = true →
      (m1 ++ " " ++ y1) ≠ "" ∧
      is_date_range (m1 ++ " " ++ y1 ++ " - Present") = true ∧
      parse_date_range_smart (m1 ++ " " ++ y1 ++ " - Present") =
        (m1 ++ " " ++ y1, "Present")) ∧
    (∀ y1 : String, isYearStr y1 = true →
      y1 ≠ "" ∧ is_date_range (y1 ++ " -") = true ∧
      parse_date_range_smart (y1 ++ " -") = (y1, "")) ∧
    (∀ text : String, is_date_range text = true ↔ GeneralDateShape text) ∧
    (∀ text : String,
      matchesFromDate (stripL (breakAtDash text.data).1) = false →
      parse_date_range_smart text = ("", "")) ∧
    (∀ text : String, ∀ rr : List Char,
      (breakAtDash text.data).2 = some rr →
      (stripL rr).isEmpty = false → matchesToDate (stripL rr) = false →
      parse_date_range_smart text = ("", "")) :=
  ⟨fun _ _ _ _ hm1 hy1 hm2 hy2 => shape_mon_full hm1 hy1 hm2 hy2,
    fun _ _ hy1 hy2 => shape_years hy1 hy2,
    fun _ _ hm1 hy1 => shape_mon_present hm1 hy1,
    fun _ hy1 => shape_ongoing hy1,
    is_date_range_iff_general,
    fun _ h => parse_fail_left h,
    fun _ _ hr hne hT => parse_fail_right hr hne hT⟩

/-- The C3 statement instantiated at concrete dates. -/
theorem c3_date_range_recognizer_behavior_witness :
    ("Oct" ∈ monthNames ∧ isYearStr "2024" = true) ∧
    is_date_range ("Oct" ++ " " ++ "2024" ++ " - " ++ "Apr" ++ " " ++
      "2025") = true ∧
    parse_date_range_smart ("Oct" ++ " " ++ "2024" ++ " - " ++ "Apr" ++
      " " ++ "2025") = ("Oct" ++ " " ++ "2024", "Apr" ++ " " ++ "2025") ∧
    parse_date_range_smart ("2015" ++ " -") = ("2015", "") :=
  ⟨⟨by decide, by decide⟩,
    (c3_date_range_recognizer_behavior.1 "Oct" "2024" "Apr" "2025"
      (by decide) (by decide) (by decide) (by decide)).2.1,
    (c3_date_range_recognizer_behavior.1 "Oct" "2024" "Apr" "2025"
      (by decide) (by decide) (by decide) (by decide)).2.2,
    (c3_date_range_recognizer_behavior.2.2.2.1 "2015" (by decide)).2.2⟩
